import Mathlib

/-!
Verification of the file-detection and robust-loading pipeline of the ziip
repository.  The JavaScript source is shallowly embedded: JS strings become
lists of characters, JS numbers used in scores become rationals, byte arrays
become lists of naturals, and the external query engine is a parameter.
-/

set_option maxRecDepth 20000

namespace Ziip

/-- The apostrophe character (JS `'`), written via its code point. -/
def squote : Char := Char.ofNat 39

/-- The backquote character, written via its code point. -/
def bquote : Char := Char.ofNat 96

/-- JS whitespace: the character set matched by `String.prototype.trim` and
by the regex class `\s`. -/
def isJsWhitespace (c : Char) : Bool :=
  let n := c.toNat
  n = 9 || n = 10 || n = 11 || n = 12 || n = 13 || n = 32 ||
  n = 0xA0 || n = 0x1680 || (0x2000 ≤ n && n ≤ 0x200A) ||
  n = 0x2028 || n = 0x2029 || n = 0x202F || n = 0x205F || n = 0x3000 || n = 0xFEFF

/-- JS `s.trim()` on a character list. -/
def jsTrim (l : List Char) : List Char :=
  ((l.dropWhile isJsWhitespace).reverse.dropWhile isJsWhitespace).reverse

/-- `line.trim().length > 0` is false exactly when every character is whitespace. -/
def isBlankLine (l : List Char) : Bool :=
  l.all isJsWhitespace

/-- JS `s.toLowerCase()`, approximated character-wise (exact on ASCII). -/
def jsToLower (l : List Char) : List Char := l.map Char.toLower

/-- `Math.min` on the rationals standing in for JS numbers (kept as an
explicit conditional so concrete values evaluate). -/
def jsMin (a b : ℚ) : ℚ := if a ≤ b then a else b

/-- Embeds `countDelimitersOutsideQuotes(line, delimiter)` from the detection
module.  The mutable pair `(inQuotes, quoteChar)` becomes the state argument:
`none` is outside quotes, `some q` is inside a span opened by quote char `q`.
A doubled quote character inside a span is an escaped quote (two characters
consumed); a matching single quote character closes the span. -/
def countDelimitersOutsideQuotes (delim : Char) : List Char → Option Char → Nat
  | [], _ => 0
  | c :: rest, none =>
    if c = '"' || c = squote then countDelimitersOutsideQuotes delim rest (some c)
    else if c = delim then countDelimitersOutsideQuotes delim rest none + 1
    else countDelimitersOutsideQuotes delim rest none
  | [_], some _ => 0
  | c :: c2 :: rest2, some q =>
    if c = q then
      if c2 = q then countDelimitersOutsideQuotes delim rest2 (some q)
      else countDelimitersOutsideQuotes delim (c2 :: rest2) none
    else countDelimitersOutsideQuotes delim (c2 :: rest2) (some q)

/-- Embeds `parseCSVLine(line, delimiter)`: the same quote state machine as
`countDelimitersOutsideQuotes`, accumulating the current field (in reverse)
and the list of completed fields.  At end of line the current field is pushed. -/
def parseCSVLineGo (delim : Char) : List Char → Option Char → List Char → List (List Char)
  | [], _, cur => [cur.reverse]
  | c :: rest, none, cur =>
    if c = '"' || c = squote then parseCSVLineGo delim rest (some c) cur
    else if c = delim then cur.reverse :: parseCSVLineGo delim rest none []
    else parseCSVLineGo delim rest none (c :: cur)
  | [c], some q, cur =>
    if c = q then [cur.reverse] else [(c :: cur).reverse]
  | c :: c2 :: rest2, some q, cur =>
    if c = q then
      if c2 = q then parseCSVLineGo delim rest2 (some q) (c :: cur)
      else parseCSVLineGo delim (c2 :: rest2) none cur
    else parseCSVLineGo delim (c2 :: rest2) (some q) (c :: cur)

/-- `parseCSVLine` on strings. -/
def parseCSVLine (line : String) (delim : Char) : List String :=
  (parseCSVLineGo delim line.data none []).map List.asString

theorem parseCSVLineGo_length (delim : Char) (l : List Char) (st : Option Char)
    (cur : List Char) :
    (parseCSVLineGo delim l st cur).length =
      countDelimitersOutsideQuotes delim l st + 1 := by
  induction l, st, cur using parseCSVLineGo.induct delim <;>
    simp_all [parseCSVLineGo, countDelimitersOutsideQuotes]

/-- C10: the quote-aware field splitter and the quote-aware delimiter counter
implement the same quote state machine: for every line and delimiter,
`parseCSVLine` returns exactly `countDelimitersOutsideQuotes + 1` fields. -/
theorem parseCSVLine_length_eq_count (line : String) (delim : Char) :
    (parseCSVLine line delim).length =
      countDelimitersOutsideQuotes delim line.data none + 1 := by
  unfold parseCSVLine
  rw [List.length_map]
  exact parseCSVLineGo_length delim line.data none []

/-- JS `content.split(/\r?\n/)`: a line break is `\n` optionally preceded by
`\r`; a lone `\r` does not break a line. -/
def splitLinesRN : List Char → List (List Char)
  | [] => [[]]
  | '\r' :: '\n' :: rest => [] :: splitLinesRN rest
  | '\n' :: rest => [] :: splitLinesRN rest
  | c :: rest =>
    match splitLinesRN rest with
    | [] => [[c]]
    | h :: t => (c :: h) :: t

/-- `content.split(/\r?\n/).filter(line => line.trim().length > 0).slice(0, k)`,
shared by `detectDelimiter` (k = 20) and `detectHeader` (k = 30). -/
def nonBlankLines (content : List Char) (k : Nat) : List (List Char) :=
  ((splitLinesRN content).filter (fun l => !isBlankLine l)).take k

/-- The candidate delimiters of `detectDelimiter`, in declaration order. -/
def delimiterCandidates : List Char := [',', '\t', ';', '|']

/-- Per-candidate score from `detectDelimiter`: quote-aware per-line counts,
zero when no line contains the candidate, otherwise
`consistency * avgCount * (nonZero / lines)` with the x1.1 comma bonus. -/
def delimScore (lines : List (List Char)) (d : Char) : ℚ :=
  let counts := lines.map (fun l => countDelimitersOutsideQuotes d l none)
  let nz := counts.filter (fun c => 0 < c)
  if nz.length = 0 then 0
  else
    let avg : ℚ := (nz.sum : ℚ) / (nz.length : ℚ)
    let consistency : ℚ :=
      ((nz.filter (fun c => decide (|(c : ℚ) - avg| ≤ 1))).length : ℚ) / (nz.length : ℚ)
    let base := consistency * avg * ((nz.length : ℚ) / (lines.length : ℚ))
    if d = ',' then base * (11 / 10) else base

/-- One step of the best-delimiter selection loop: replace the current best
only on a strictly larger score. -/
def bestStep (f : Char → ℚ) (b : Char × ℚ) (d : Char) : Char × ℚ :=
  if f d > b.2 then (d, f d) else b

structure DelimiterInfo where
  delimiter : Char
  confidence : ℚ
deriving DecidableEq, Repr

/-- Embeds `detectDelimiter(content)`: first 20 non-blank lines, score each
candidate, pick the best starting from `(',', 0)`, confidence
`min(1, bestScore / 10)`; no non-blank lines gives comma with confidence 0. -/
def detectDelimiter (content : String) : DelimiterInfo :=
  let lines := nonBlankLines content.data 20
  if lines.length = 0 then ⟨',', 0⟩
  else
    let best := delimiterCandidates.foldl (bestStep (delimScore lines)) (',', 0)
    ⟨best.1, jsMin 1 (best.2 / 10)⟩

theorem delimScore_nonneg (lines : List (List Char)) (d : Char) :
    0 ≤ delimScore lines d := by
  unfold delimScore
  dsimp only
  split
  · exact le_refl 0
  · split <;> positivity

/-- The strict-improvement argmax fold keeps the first maximiser: the final
best bounds the initial score and every candidate score, and, unless it is
the initial pair, it carries its own score and all earlier candidates (and
the initial score) lie strictly below it. -/
theorem foldBest_characterization (f : Char → ℚ) :
    ∀ (cands : List Char) (b : Char × ℚ),
      b.2 ≤ (cands.foldl (bestStep f) b).2 ∧
      (∀ d ∈ cands, f d ≤ (cands.foldl (bestStep f) b).2) ∧
      ((cands.foldl (bestStep f) b) = b ∨
        ∃ pre post, cands = pre ++ (cands.foldl (bestStep f) b).1 :: post ∧
          (cands.foldl (bestStep f) b).2 = f (cands.foldl (bestStep f) b).1 ∧
          b.2 < (cands.foldl (bestStep f) b).2 ∧
          (∀ d ∈ pre, f d < (cands.foldl (bestStep f) b).2) ∧
          (∀ d ∈ post, f d ≤ (cands.foldl (bestStep f) b).2)) := by
  intro cands
  induction cands with
  | nil => intro b; simp
  | cons d rest ih =>
    intro b
    rw [List.foldl_cons]
    by_cases hd : f d > b.2
    · have hb : bestStep f b d = (d, f d) := by simp [bestStep, hd]
      rw [hb]
      rcases ih (d, f d) with ⟨h1, h2, h3⟩
      set R := List.foldl (bestStep f) (d, f d) rest with hR
      refine ⟨le_trans (le_of_lt hd) h1, ?_, ?_⟩
      · intro x hx
        rcases List.mem_cons.mp hx with h | h
        · subst h; exact h1
        · exact h2 x h
      · rcases h3 with h3 | ⟨pre, post, hdec, heq, hlt, hpre, hpost⟩
        · right
          refine ⟨[], rest, ?_, ?_, ?_, ?_, ?_⟩
          · rw [h3]; simp
          · rw [h3]
          · rw [h3]; exact hd
          · intro x hx; simp at hx
          · intro x hx; exact h2 x hx
        · right
          refine ⟨d :: pre, post, ?_, heq, ?_, ?_, hpost⟩
          · rw [hdec]; rfl
          · exact lt_trans hd hlt
          · intro x hx
            rcases List.mem_cons.mp hx with h | h
            · subst h; exact hlt
            · exact hpre x h
    · have hb : bestStep f b d = b := by simp [bestStep, hd]
      rw [hb]
      rcases ih b with ⟨h1, h2, h3⟩
      set R := List.foldl (bestStep f) b rest with hR
      refine ⟨h1, ?_, ?_⟩
      · intro x hx
        rcases List.mem_cons.mp hx with h | h
        · subst h; exact le_trans (le_of_not_lt hd) h1
        · exact h2 x h
      · rcases h3 with h3 | ⟨pre, post, hdec, heq, hlt, hpre, hpost⟩
        · left; exact h3
        · right
          refine ⟨d :: pre, post, ?_, heq, hlt, ?_, hpost⟩
          · rw [hdec]; rfl
          · intro x hx
            rcases List.mem_cons.mp hx with h | h
            · subst h; exact lt_of_le_of_lt (le_of_not_lt hd) hlt
            · exact hpre x h

/-- C8: `detectDelimiter` chooses among comma, tab, semicolon and pipe over
the first 20 non-blank lines by the quote-aware consistency/average/coverage
score (comma boosted by 1.1): when any non-blank line exists the winner is a
candidate whose score bounds every candidate score, every strictly earlier
candidate scores strictly below it (declaration-order tie-break, comma
first), and the confidence is `min(1, score(winner)/10)`; content with no
non-blank line yields comma with confidence 0. -/
theorem detectDelimiter_argmax (content : String)
    (h : (nonBlankLines content.data 20).length ≠ 0) :
    ((detectDelimiter content).delimiter ∈ delimiterCandidates ∧
      (∀ d ∈ delimiterCandidates,
        delimScore (nonBlankLines content.data 20) d ≤
          delimScore (nonBlankLines content.data 20) (detectDelimiter content).delimiter) ∧
      (detectDelimiter content).confidence =
        jsMin 1 (delimScore (nonBlankLines content.data 20) (detectDelimiter content).delimiter / 10) ∧
      (∃ pre post, delimiterCandidates = pre ++ (detectDelimiter content).delimiter :: post ∧
        ∀ d ∈ pre,
          delimScore (nonBlankLines content.data 20) d <
            delimScore (nonBlankLines content.data 20) (detectDelimiter content).delimiter)) ∧
    (∀ c : String, (nonBlankLines c.data 20).length = 0 → detectDelimiter c = ⟨',', 0⟩) := by
  constructor
  · have hu : detectDelimiter content =
        ⟨(delimiterCandidates.foldl (bestStep (delimScore (nonBlankLines content.data 20))) (',', 0)).1,
          jsMin 1 ((delimiterCandidates.foldl (bestStep (delimScore (nonBlankLines content.data 20))) (',', 0)).2 / 10)⟩ := by
      unfold detectDelimiter
      simp only [h, if_false, if_neg h]
    set lines := nonBlankLines content.data 20 with hlines
    set f := delimScore lines with hf
    rcases foldBest_characterization f delimiterCandidates (',', 0) with ⟨h1, h2, h3⟩
    set R := delimiterCandidates.foldl (bestStep f) (',', 0) with hRdef
    have hRval : R.2 = f R.1 ∧ R.1 ∈ delimiterCandidates := by
      rcases h3 with h3 | ⟨pre, post, hdec, heq, _, _, _⟩
      · constructor
        · have hcomma : f ',' ≤ (0 : ℚ) := by
            have h' := h2 ',' (by simp [delimiterCandidates])
            rw [h3] at h'
            simpa using h'
          have hnn : (0 : ℚ) ≤ f ',' := delimScore_nonneg lines ','
          rw [h3]
          exact (le_antisymm hcomma hnn).symm
        · rw [h3]; simp [delimiterCandidates]
      · exact ⟨heq, by rw [hdec]; simp⟩
    refine ⟨?_, ?_, ?_, ?_⟩
    · rw [hu]; exact hRval.2
    · intro d hd
      rw [hu]
      dsimp only
      rw [← hRval.1]
      exact h2 d hd
    · rw [hu]
      dsimp only
      rw [← hRval.1]
    · rw [hu]
      dsimp only
      rcases h3 with h3 | ⟨pre, post, hdec, heq, _, hpre, _⟩
      · refine ⟨[], ['\t', ';', '|'], ?_, ?_⟩
        · rw [h3]; rfl
        · intro d hd; simp at hd
      · refine ⟨pre, post, hdec, ?_⟩
        intro d hd
        rw [← hRval.1]
        exact hpre d hd
  · intro c hc
    unfold detectDelimiter
    simp only [hc, if_pos]

/-- Witness for C8 at concrete inputs: the empty string yields comma with 0
confidence, and on a two-line semicolon file the winner is a candidate with
the stated confidence equation. -/
theorem detectDelimiter_argmax_witness :
    detectDelimiter "" = ⟨',', 0⟩ ∧
    ((detectDelimiter "a;b\nc;d").delimiter ∈ delimiterCandidates ∧
      (detectDelimiter "a;b\nc;d").confidence =
        jsMin 1 (delimScore (nonBlankLines ("a;b\nc;d" : String).data 20)
          (detectDelimiter "a;b\nc;d").delimiter / 10)) := by
  refine ⟨(detectDelimiter_argmax "a" (by decide)).2 "" (by decide), ?_, ?_⟩
  · exact ((detectDelimiter_argmax "a;b\nc;d" (by decide)).1).1
  · exact ((detectDelimiter_argmax "a;b\nc;d" (by decide)).1).2.2.1

/-- JS `parseFloat(s)` yields a number (not NaN) exactly when, after leading
whitespace and an optional sign, the input starts with a digit, a dot
followed by a digit, or the literal `Infinity`. -/
def parseFloatIsNum (l : List Char) : Bool :=
  let t := l.dropWhile isJsWhitespace
  let t2 := match t with
    | c :: r => if c = '+' || c = '-' then r else c :: r
    | [] => []
  match t2 with
  | [] => false
  | '.' :: c :: _ => c.isDigit
  | 'I' :: 'n' :: 'f' :: 'i' :: 'n' :: 'i' :: 't' :: 'y' :: _ => true
  | c :: _ => c.isDigit

/-- `!isNaN(parseFloat(v)) && v.trim() !== ''` (the `headerIsNum`/`dataIsNum`
test in `detectHeader`). -/
def tokenIsNumeric (l : List Char) : Bool :=
  parseFloatIsNum l && !(jsTrim l).isEmpty

/-- `isNaN(parseFloat(val)) || val.trim() === ''` (the all-text check). -/
def tokenFailsNumericParse (l : List Char) : Bool :=
  !parseFloatIsNum l || (jsTrim l).isEmpty

/-- The regex test `/[a-zA-Z]/`. -/
def isAsciiLetter (c : Char) : Bool :=
  ('a' ≤ c && c ≤ 'z') || ('A' ≤ c && c ≤ 'Z')

/-- `typeChanges` from `detectHeader`: positions (up to the shorter row)
where row 1 is non-numeric and row 2 numeric. -/
def countTypeChanges (fr dr : List (List Char)) : Nat :=
  ((fr.zip dr).filter (fun p => !tokenIsNumeric p.1 && tokenIsNumeric p.2)).length

structure HeaderInfo where
  hasHeader : Bool
  headerRowIndex : Nat
  confidence : ℚ
deriving DecidableEq, Repr

/-- The integer header score of `detectHeader`: +2 when every first-row token
fails numeric parse, +1 when the lower-cased trimmed first-row tokens are
pairwise distinct, +2 when `typeChanges > firstRow.length / 3` against the
first data row, +1 when some first-row token contains an ASCII letter. -/
def headerScoreOf (firstRow : List (List Char)) (dataRows : List (List (List Char))) : Nat :=
  (if firstRow.all tokenFailsNumericParse then 2 else 0) +
  (if (firstRow.map (fun v => jsTrim (jsToLower v))).dedup.length = firstRow.length then 1 else 0) +
  (match dataRows with
   | [] => 0
   | dataRow :: _ => if firstRow.length < 3 * countTypeChanges firstRow dataRow then 2 else 0) +
  (if firstRow.any (fun v => v.any isAsciiLetter) then 1 else 0)

/-- Embeds `detectHeader(content, delimiter)`: up to 30 non-blank lines, the
first 10 parsed as rows; fewer than 2 lines (or an empty first row) gives
the `(true, 0, 0.5)` default, otherwise `hasHeader = score >= 2` and
confidence `min(1, score/5)`. -/
def detectHeader (content : String) (delim : Char) : HeaderInfo :=
  let lines := nonBlankLines content.data 30
  if lines.length < 2 then ⟨true, 0, 1/2⟩
  else
    match (lines.take 10).map (fun l => parseCSVLineGo delim l none []) with
    | [] => ⟨true, 0, 1/2⟩
    | firstRow :: dataRows =>
      if firstRow.length = 0 then ⟨true, 0, 1/2⟩
      else
        let score := headerScoreOf firstRow dataRows
        ⟨decide (2 ≤ score), 0, jsMin 1 ((score : ℚ) / 5)⟩

/-- C9 counterexample: on `"x,y,1,1,1,1\n1,2"` the first row has six tokens
and only two are compared with the short second row; both compared positions
shift from non-numeric to numeric, so more than one third of the compared
positions change type and the claim's scoring reaches 2 (+2 type shift, +1
letters, all-text and uniqueness failing), predicting `hasHeader = true`;
the code divides by the full first-row length (2 > 6/3 fails) and returns
`hasHeader = false`. -/
theorem detectHeader_compared_positions_counterexample :
    (detectHeader "x,y,1,1,1,1\n1,2" ',').hasHeader = false ∧
    2 ≤ (nonBlankLines ("x,y,1,1,1,1\n1,2" : String).data 30).length ∧
    (min (parseCSVLineGo ',' ("x,y,1,1,1,1" : String).data none []).length
        (parseCSVLineGo ',' ("1,2" : String).data none []).length <
      3 * countTypeChanges (parseCSVLineGo ',' ("x,y,1,1,1,1" : String).data none [])
        (parseCSVLineGo ',' ("1,2" : String).data none [])) ∧
    (parseCSVLineGo ',' ("x,y,1,1,1,1" : String).data none []).all
        tokenFailsNumericParse = false ∧
    ¬ ((parseCSVLineGo ',' ("x,y,1,1,1,1" : String).data none []).map
        (fun v => jsTrim (jsToLower v))).dedup.length =
      (parseCSVLineGo ',' ("x,y,1,1,1,1" : String).data none []).length ∧
    (parseCSVLineGo ',' ("x,y,1,1,1,1" : String).data none []).any
        (fun v => v.any isAsciiLetter) = true := by
  exact ⟨by decide, by decide, by decide, by decide, by decide, by decide⟩

/-- Evaluation rule for `detectHeader` when at least two non-blank lines are
present: the result is determined by the integer score of the parsed rows. -/
theorem detectHeader_eval (content : String) (delim : Char)
    (firstRow : List (List Char)) (dataRows : List (List (List Char)))
    (h2 : 2 ≤ (nonBlankLines content.data 30).length)
    (hrows : ((nonBlankLines content.data 30).take 10).map
        (fun l => parseCSVLineGo delim l none []) = firstRow :: dataRows) :
    detectHeader content delim =
      ⟨decide (2 ≤ headerScoreOf firstRow dataRows), 0,
        jsMin 1 ((headerScoreOf firstRow dataRows : ℚ) / 5)⟩ := by
  have hne : firstRow ≠ [] := by
    have hmem : firstRow ∈ ((nonBlankLines content.data 30).take 10).map
        (fun l => parseCSVLineGo delim l none []) := by
      rw [hrows]; exact List.mem_cons_self _ _
    rcases List.mem_map.mp hmem with ⟨l, _, hl⟩
    rw [← hl]
    intro hcontra
    have hlen := parseCSVLineGo_length delim l none []
    rw [hcontra] at hlen
    simp at hlen
  have hlen : ¬ (nonBlankLines content.data 30).length < 2 := Nat.not_lt.mpr h2
  have hfr : ¬ firstRow.length = 0 := fun hz => hne (List.length_eq_zero.mp hz)
  unfold detectHeader
  dsimp only
  rw [if_neg hlen, hrows]
  dsimp only
  rw [if_neg hfr]

/-- C9 amended: `detectHeader` scores exactly as claimed except that the
type-shift criterion compares `typeChanges` against one third of the full
first-row length (not of the number of compared positions); threshold 2,
confidence `min(1, score/5)`, fewer than 2 non-blank lines defaults to
`(true, 0.5)`, and on `"id,name,value\n1,Alice,100"` the result is
`hasHeader = true` with confidence 1 ≥ 0.6. -/
theorem detectHeader_spec (content : String) (delim : Char)
    (firstRow : List (List Char)) (dataRows : List (List (List Char)))
    (h2 : 2 ≤ (nonBlankLines content.data 30).length)
    (hrows : ((nonBlankLines content.data 30).take 10).map
        (fun l => parseCSVLineGo delim l none []) = firstRow :: dataRows) :
    detectHeader content delim =
      ⟨decide (2 ≤ headerScoreOf firstRow dataRows), 0,
        jsMin 1 ((headerScoreOf firstRow dataRows : ℚ) / 5)⟩ ∧
    (∀ c d, (nonBlankLines (String.data c) 30).length < 2 →
      detectHeader c d = ⟨true, 0, 1/2⟩) ∧
    ((detectHeader "id,name,value\n1,Alice,100" ',').hasHeader = true ∧
      (3/5 : ℚ) ≤ (detectHeader "id,name,value\n1,Alice,100" ',').confidence) := by
  refine ⟨detectHeader_eval content delim firstRow dataRows h2 hrows, ?_, ?_⟩
  · intro c d hcd
    unfold detectHeader
    simp only [hcd, if_pos]
  · have hev := detectHeader_eval "id,name,value\n1,Alice,100" ','
      [['i', 'd'], ['n', 'a', 'm', 'e'], ['v', 'a', 'l', 'u', 'e']]
      [[['1'], ['A', 'l', 'i', 'c', 'e'], ['1', '0', '0']]]
      (by decide) (by decide)
    have hsc : headerScoreOf
        [['i', 'd'], ['n', 'a', 'm', 'e'], ['v', 'a', 'l', 'u', 'e']]
        [[['1'], ['A', 'l', 'i', 'c', 'e'], ['1', '0', '0']]] = 6 := by decide
    rw [hev, hsc]
    norm_num [jsMin]

/-- Witness for C9's amended theorem at a concrete input. -/
theorem detectHeader_spec_witness :
    (detectHeader "a,b\n1,2" ',').hasHeader = true := by
  have h := detectHeader_spec "a,b\n1,2" ',' [['a'], ['b']] [[['1'], ['2']]]
    (by decide) (by decide)
  rw [h.1]
  decide

structure EncodingInfo where
  encoding : String
  hasBOM : Bool
  bomLength : Nat
deriving DecidableEq, Repr

/-- The `WIN1252_SPECIFIC` byte set from the detection module. -/
def win1252Specific : List Nat :=
  [0x80, 0x82, 0x83, 0x84, 0x85, 0x86, 0x87, 0x88, 0x89, 0x8A, 0x8B, 0x8C, 0x8E,
   0x91, 0x92, 0x93, 0x94, 0x95, 0x96, 0x97, 0x98, 0x99, 0x9A, 0x9B, 0x9C, 0x9E, 0x9F]

/-- The `WIN1252_TO_UNICODE` mapping for bytes 0x80-0x9F. -/
def win1252ToUnicode : List (Nat × Nat) :=
  [(0x80, 0x20AC), (0x82, 0x201A), (0x83, 0x0192), (0x84, 0x201E), (0x85, 0x2026),
   (0x86, 0x2020), (0x87, 0x2021), (0x88, 0x02C6), (0x89, 0x2030), (0x8A, 0x0160),
   (0x8B, 0x2039), (0x8C, 0x0152), (0x8E, 0x017D), (0x91, 0x2018), (0x92, 0x2019),
   (0x93, 0x201C), (0x94, 0x201D), (0x95, 0x2022), (0x96, 0x2013), (0x97, 0x2014),
   (0x98, 0x02DC), (0x99, 0x2122), (0x9A, 0x0161), (0x9B, 0x203A), (0x9C, 0x0153),
   (0x9E, 0x017E), (0x9F, 0x0178)]

/-- `countNullBytes(bytes, length)`. -/
def countNullBytes (bytes : List Nat) (len : Nat) : Nat :=
  ((bytes.take len).filter (fun b => b = 0)).length

/-- Index-carrying loop of `countNullPositions`, with the mutable
`evenNulls`/`oddNulls` counters as accumulators. -/
def countNullPositionsGo : List Nat → Nat → Nat → Nat → Nat × Nat
  | [], _, e, o => (e, o)
  | b :: rest, i, e, o =>
    if b = 0 then
      if i % 2 = 0 then countNullPositionsGo rest (i + 1) (e + 1) o
      else countNullPositionsGo rest (i + 1) e (o + 1)
    else countNullPositionsGo rest (i + 1) e o

/-- `countNullPositions(bytes, length)`: `(evenNulls, oddNulls)` over the
first `length` bytes. -/
def countNullPositions (bytes : List Nat) (len : Nat) : Nat × Nat :=
  countNullPositionsGo (bytes.take len) 0 0 0

theorem countNullPositionsGo_sum (l : List Nat) :
    ∀ i e o, (countNullPositionsGo l i e o).1 + (countNullPositionsGo l i e o).2 =
      e + o + (l.filter (fun b => b = 0)).length := by
  induction l with
  | nil => intro i e o; simp [countNullPositionsGo]
  | cons b rest ih =>
    intro i e o
    simp only [countNullPositionsGo, List.filter_cons]
    by_cases hb : b = 0
    · subst hb
      by_cases hi : i % 2 = 0 <;> simp [hi, ih (i + 1)] <;> omega
    · simp [hb, ih (i + 1)]

theorem countNullPositions_sum (bytes : List Nat) (len : Nat) :
    (countNullPositions bytes len).1 + (countNullPositions bytes len).2 =
      countNullBytes bytes len := by
  have h := countNullPositionsGo_sum (bytes.take len) 0 0 0
  simpa using h

/-- The Windows-1252 / UTF-8 validation loop of `detectEncodingHeuristic`.
The unread suffix of the byte array stands for `bytes` from index `i` on and
`fuel` is `min(10000, bytes.length) - i`, so the loop runs while `fuel > 0`;
the `i + k >= bytes.length` continuation checks become pattern matches on
the suffix, and a deficient suffix ends the loop (the jump of `i` past the
array also moves it past the limit) with `utf8Valid = false`.  A lone
continuation byte (0x80-0xBF) leaves `utf8Valid` unchanged, as in the source.
Returns `(win1252Indicators, utf8Valid)`. -/
def utf8Win1252Scan : List Nat → Nat → Nat → Bool → Nat × Bool
  | _, 0, win, valid => (win, valid)
  | [], _, win, valid => (win, valid)
  | b :: rest, fuel + 1, win, valid =>
    let win' := win + (if win1252Specific.contains b then 1 else 0)
    if b < 0x80 then utf8Win1252Scan rest fuel win' valid
    else if b &&& 0xE0 = 0xC0 then
      match rest with
      | [] => (win', false)
      | b2 :: rest2 =>
        utf8Win1252Scan rest2 (fuel - 1) win' (valid && decide (b2 &&& 0xC0 = 0x80))
    else if b &&& 0xF0 = 0xE0 then
      match rest with
      | b2 :: b3 :: rest3 =>
        utf8Win1252Scan rest3 (fuel - 2) win'
          (valid && decide (b2 &&& 0xC0 = 0x80) && decide (b3 &&& 0xC0 = 0x80))
      | _ => (win', false)
    else if b &&& 0xF8 = 0xF0 then
      match rest with
      | b2 :: b3 :: b4 :: rest4 =>
        utf8Win1252Scan rest4 (fuel - 3) win'
          (valid && decide (b2 &&& 0xC0 = 0x80) && decide (b3 &&& 0xC0 = 0x80) &&
            decide (b4 &&& 0xC0 = 0x80))
      | _ => (win', false)
    else utf8Win1252Scan rest fuel win' (valid && decide (b &&& 0xC0 = 0x80))

/-- Embeds `detectEncodingHeuristic(bytes)`.  The JS real-number comparisons
`evenNulls > bytes.length / 4` and `oddNulls < bytes.length / 20` on
integers are rendered exactly as `4 * evenNulls > len` and
`20 * oddNulls < len`. -/
def detectEncodingHeuristic (bytes : List Nat) : EncodingInfo :=
  let len := bytes.length
  let nullCount := countNullBytes bytes (min 1000 len)
  let p := countNullPositions bytes (min 1000 len)
  if 0 < nullCount ∧ len < 4 * p.1 ∧ 20 * p.2 < len then ⟨"UTF-16LE", false, 0⟩
  else if 0 < nullCount ∧ len < 4 * p.2 ∧ 20 * p.1 < len then ⟨"UTF-16BE", false, 0⟩
  else
    let scan := utf8Win1252Scan bytes (min 10000 len) 0 true
    if 0 < scan.1 ∧ scan.2 = false then ⟨"Windows-1252", false, 0⟩
    else if scan.2 then ⟨"UTF-8", false, 0⟩
    else ⟨"ISO-8859-1", false, 0⟩

/-- Embeds `detectEncoding(buffer)`: the five BOM checks in source order
(UTF-32 before UTF-16), else the heuristic. -/
def detectEncoding (bytes : List Nat) : EncodingInfo :=
  if 4 ≤ bytes.length ∧ bytes.getD 0 0 = 0xFF ∧ bytes.getD 1 0 = 0xFE ∧
      bytes.getD 2 0 = 0x00 ∧ bytes.getD 3 0 = 0x00 then ⟨"UTF-32LE", true, 4⟩
  else if 4 ≤ bytes.length ∧ bytes.getD 0 0 = 0x00 ∧ bytes.getD 1 0 = 0x00 ∧
      bytes.getD 2 0 = 0xFE ∧ bytes.getD 3 0 = 0xFF then ⟨"UTF-32BE", true, 4⟩
  else if 3 ≤ bytes.length ∧ bytes.getD 0 0 = 0xEF ∧ bytes.getD 1 0 = 0xBB ∧
      bytes.getD 2 0 = 0xBF then ⟨"UTF-8", true, 3⟩
  else if 2 ≤ bytes.length ∧ bytes.getD 0 0 = 0xFF ∧ bytes.getD 1 0 = 0xFE then
    ⟨"UTF-16LE", true, 2⟩
  else if 2 ≤ bytes.length ∧ bytes.getD 0 0 = 0xFE ∧ bytes.getD 1 0 = 0xFF then
    ⟨"UTF-16BE", true, 2⟩
  else detectEncodingHeuristic bytes

/-- `decodeWindows1252(bytes)`: ASCII passes through, the 27-entry table
covers 0x80-0x9F, everything else maps directly (Latin-1). -/
def decodeWindows1252 : List Nat → List Char
  | [] => []
  | b :: rest =>
    (if b < 0x80 then Char.ofNat b
     else
       match win1252ToUnicode.lookup b with
       | some u => Char.ofNat u
       | none => Char.ofNat b) :: decodeWindows1252 rest

/-- `decodeUTF32(bytes, littleEndian)`: 4-byte code units, skipping code
points that are zero or above 0x10FFFF (an out-of-range or, in JS, negative
32-bit value is skipped either way; surrogate code points are the one spot
where `Char.ofNat` and `String.fromCodePoint` differ). -/
def decodeUTF32 : List Nat → Bool → List Char
  | b0 :: b1 :: b2 :: b3 :: rest, le =>
    let cp := if le then b0 + 256 * b1 + 65536 * b2 + 16777216 * b3
              else 16777216 * b0 + 65536 * b1 + 256 * b2 + b3
    (if 0 < cp ∧ cp ≤ 0x10FFFF then [Char.ofNat cp] else []) ++ decodeUTF32 rest le
  | _, _ => []

/-- Embeds `decodeToUTF8(buffer, encoding, bomLength)`.  The view
`new Uint8Array(buffer, bomLength)` is the suffix after the BOM.
`TextDecoder` is external to the repository; it enters as the parameter
`td`, keyed by codec label, while the module's own decoders are embedded
concretely. -/
def decodeToUTF8 (td : String → List Nat → List Char)
    (buffer : List Nat) (encoding : String) (bomLength : Nat) : List Char :=
  let bytes := buffer.drop bomLength
  if encoding = "UTF-8" then td "utf-8" bytes
  else if encoding = "UTF-16LE" then td "utf-16le" bytes
  else if encoding = "UTF-16BE" then td "utf-16be" bytes
  else if encoding = "Windows-1252" then decodeWindows1252 bytes
  else if encoding = "ISO-8859-1" then td "iso-8859-1" bytes
  else if encoding = "UTF-32LE" ∨ encoding = "UTF-32BE" then
    decodeUTF32 bytes (encoding = "UTF-32LE")
  else td "utf-8-replacement" bytes

/-- The fallback (Windows-1252 / UTF-8 / ISO-8859-1) classification never
produces a UTF-16 label. -/
theorem detectEncodingHeuristic_utf16_iff (bytes : List Nat) :
    ((detectEncodingHeuristic bytes).encoding = "UTF-16LE" ↔
      (bytes.length < 4 * (countNullPositions bytes (min 1000 bytes.length)).1 ∧
       20 * (countNullPositions bytes (min 1000 bytes.length)).2 < bytes.length)) ∧
    ((detectEncodingHeuristic bytes).encoding = "UTF-16BE" ↔
      (bytes.length < 4 * (countNullPositions bytes (min 1000 bytes.length)).2 ∧
       20 * (countNullPositions bytes (min 1000 bytes.length)).1 < bytes.length)) ∧
    ((detectEncodingHeuristic bytes).encoding = "UTF-16LE" →
      detectEncodingHeuristic bytes = ⟨"UTF-16LE", false, 0⟩) ∧
    ((detectEncodingHeuristic bytes).encoding = "UTF-16BE" →
      detectEncodingHeuristic bytes = ⟨"UTF-16BE", false, 0⟩) := by
  have hsum := countNullPositions_sum bytes (min 1000 bytes.length)
  unfold detectEncodingHeuristic
  dsimp only
  set len := bytes.length with hlen
  set n := countNullBytes bytes (min 1000 len) with hn
  set p := countNullPositions bytes (min 1000 len) with hp
  by_cases h1 : 0 < n ∧ len < 4 * p.1 ∧ 20 * p.2 < len
  · rw [if_pos h1]
    obtain ⟨-, hA, hB⟩ := h1
    refine ⟨by simpa using ⟨hA, hB⟩, ?_, fun _ => rfl, ?_⟩
    · constructor
      · intro hcontra; exact absurd hcontra (by decide)
      · intro hcontra; omega
    · intro hcontra; exact absurd hcontra (by decide)
  · rw [if_neg h1]
    by_cases h2 : 0 < n ∧ len < 4 * p.2 ∧ 20 * p.1 < len
    · rw [if_pos h2]
      obtain ⟨-, hA, hB⟩ := h2
      refine ⟨?_, by simpa using ⟨hA, hB⟩, ?_, fun _ => rfl⟩
      · constructor
        · intro hcontra; exact absurd hcontra (by decide)
        · intro hcontra; omega
      · intro hcontra; exact absurd hcontra (by decide)
    · rw [if_neg h2]
      have hle : ¬ (len < 4 * p.1 ∧ 20 * p.2 < len) := by
        intro hcontra
        exact h1 ⟨by omega, hcontra⟩
      have hbe : ¬ (len < 4 * p.2 ∧ 20 * p.1 < len) := by
        intro hcontra
        exact h2 ⟨by omega, hcontra⟩
      have hfb : ((if 0 < (utf8Win1252Scan bytes (min 10000 len) 0 true).1 ∧
            (utf8Win1252Scan bytes (min 10000 len) 0 true).2 = false then
              (⟨"Windows-1252", false, 0⟩ : EncodingInfo)
            else if (utf8Win1252Scan bytes (min 10000 len) 0 true).2 then
              ⟨"UTF-8", false, 0⟩
            else ⟨"ISO-8859-1", false, 0⟩).encoding ≠ "UTF-16LE") ∧
          ((if 0 < (utf8Win1252Scan bytes (min 10000 len) 0 true).1 ∧
            (utf8Win1252Scan bytes (min 10000 len) 0 true).2 = false then
              (⟨"Windows-1252", false, 0⟩ : EncodingInfo)
            else if (utf8Win1252Scan bytes (min 10000 len) 0 true).2 then
              ⟨"UTF-8", false, 0⟩
            else ⟨"ISO-8859-1", false, 0⟩).encoding ≠ "UTF-16BE") := by
        constructor <;> (split_ifs <;> decide)
      exact ⟨by simp [hfb.1, hle], by simp [hfb.2, hbe],
        fun hcontra => absurd hcontra hfb.1, fun hcontra => absurd hcontra hfb.2⟩

/-- C1 amended: for byte sequences with no BOM, the UTF-16 heuristic of
`detectEncoding` counts NUL bytes over the first min(1000, len) bytes — not
min(10000, len) — and classifies the input as UTF-16LE (resp. UTF-16BE)
exactly when the even-offset (resp. odd-offset) NULs in that window exceed
len/4 while the other parity has fewer than len/20 NULs, with len the full
byte length. -/
theorem detectEncoding_utf16_heuristic (bytes : List Nat)
    (h1 : ¬(4 ≤ bytes.length ∧ bytes.getD 0 0 = 0xFF ∧ bytes.getD 1 0 = 0xFE ∧
      bytes.getD 2 0 = 0x00 ∧ bytes.getD 3 0 = 0x00))
    (h2 : ¬(4 ≤ bytes.length ∧ bytes.getD 0 0 = 0x00 ∧ bytes.getD 1 0 = 0x00 ∧
      bytes.getD 2 0 = 0xFE ∧ bytes.getD 3 0 = 0xFF))
    (h3 : ¬(3 ≤ bytes.length ∧ bytes.getD 0 0 = 0xEF ∧ bytes.getD 1 0 = 0xBB ∧
      bytes.getD 2 0 = 0xBF))
    (h4 : ¬(2 ≤ bytes.length ∧ bytes.getD 0 0 = 0xFF ∧ bytes.getD 1 0 = 0xFE))
    (h5 : ¬(2 ≤ bytes.length ∧ bytes.getD 0 0 = 0xFE ∧ bytes.getD 1 0 = 0xFF)) :
    ((detectEncoding bytes).encoding = "UTF-16LE" ↔
      (bytes.length < 4 * (countNullPositions bytes (min 1000 bytes.length)).1 ∧
       20 * (countNullPositions bytes (min 1000 bytes.length)).2 < bytes.length)) ∧
    ((detectEncoding bytes).encoding = "UTF-16BE" ↔
      (bytes.length < 4 * (countNullPositions bytes (min 1000 bytes.length)).2 ∧
       20 * (countNullPositions bytes (min 1000 bytes.length)).1 < bytes.length)) ∧
    ((detectEncoding bytes).encoding = "UTF-16LE" →
      detectEncoding bytes = ⟨"UTF-16LE", false, 0⟩) ∧
    ((detectEncoding bytes).encoding = "UTF-16BE" →
      detectEncoding bytes = ⟨"UTF-16BE", false, 0⟩) := by
  have hh : detectEncoding bytes = detectEncodingHeuristic bytes := by
    unfold detectEncoding
    rw [if_neg h1, if_neg h2, if_neg h3, if_neg h4, if_neg h5]
  rw [hh]
  exact detectEncodingHeuristic_utf16_iff bytes

/-- Witness for C1's amended theorem: four alternating NUL/`A` bytes are
heuristically classified UTF-16LE. -/
theorem detectEncoding_utf16_heuristic_witness :
    (detectEncoding [0, 0x41, 0, 0x41]).encoding = "UTF-16LE" := by
  have h := detectEncoding_utf16_heuristic [0, 0x41, 0, 0x41]
    (by decide) (by decide) (by decide) (by decide) (by decide)
  exact h.1.mpr (by decide)

/-- C1 counterexample bytes, 1100 bytes with no BOM: 275 NUL/`A` pairs,
450 `A` bytes of padding, then 50 more NUL/`A` pairs, so every NUL sits at
an even offset. -/
def c1Bytes : List Nat :=
  (List.replicate 275 ([0, 0x41] : List Nat)).flatten ++
    List.replicate 450 (0x41 : Nat) ++
    (List.replicate 50 ([0, 0x41] : List Nat)).flatten

set_option maxHeartbeats 1000000 in
/-- C1 counterexample: over the claim's min(10000, len) window these 1100
bytes have 325 even-offset NULs — more than len/4 = 275 — and no odd-offset
NULs, so the claim classifies UTF-16LE; the code's window is min(1000, len),
which sees only 275 even-offset NULs, `275 > 1100/4` fails, and the input is
classified UTF-8. -/
theorem detectEncoding_utf16_window_counterexample :
    (detectEncoding c1Bytes).encoding = "UTF-8" ∧
    c1Bytes.length < 4 * (countNullPositions c1Bytes (min 10000 c1Bytes.length)).1 ∧
    20 * (countNullPositions c1Bytes (min 10000 c1Bytes.length)).2 < c1Bytes.length ∧
    ¬(2 ≤ c1Bytes.length ∧ c1Bytes.getD 0 0 = 0xFF ∧ c1Bytes.getD 1 0 = 0xFE) ∧
    ¬(2 ≤ c1Bytes.length ∧ c1Bytes.getD 0 0 = 0xFE ∧ c1Bytes.getD 1 0 = 0xFF) ∧
    ¬(4 ≤ c1Bytes.length ∧ c1Bytes.getD 0 0 = 0x00 ∧ c1Bytes.getD 1 0 = 0x00 ∧
      c1Bytes.getD 2 0 = 0xFE ∧ c1Bytes.getD 3 0 = 0xFF) ∧
    ¬(3 ≤ c1Bytes.length ∧ c1Bytes.getD 0 0 = 0xEF ∧ c1Bytes.getD 1 0 = 0xBB ∧
      c1Bytes.getD 2 0 = 0xBF) := by
  refine ⟨by decide, by decide, by decide, by decide, by decide, by decide, by decide⟩

/-- C7: each of the five BOM signatures is classified with `hasBOM = true`
and its exact byte length, the longer UTF-32 markers taking priority over
the UTF-16 prefixes, and `decodeToUTF8` called with a BOM length reads only
the bytes after the BOM. -/
theorem detectEncoding_bom_spec (bytes : List Nat)
    (td : String → List Nat → List Char) :
    (4 ≤ bytes.length → bytes.getD 0 0 = 0xFF → bytes.getD 1 0 = 0xFE →
      bytes.getD 2 0 = 0x00 → bytes.getD 3 0 = 0x00 →
      detectEncoding bytes = ⟨"UTF-32LE", true, 4⟩) ∧
    (4 ≤ bytes.length → bytes.getD 0 0 = 0x00 → bytes.getD 1 0 = 0x00 →
      bytes.getD 2 0 = 0xFE → bytes.getD 3 0 = 0xFF →
      detectEncoding bytes = ⟨"UTF-32BE", true, 4⟩) ∧
    (3 ≤ bytes.length → bytes.getD 0 0 = 0xEF → bytes.getD 1 0 = 0xBB →
      bytes.getD 2 0 = 0xBF → detectEncoding bytes = ⟨"UTF-8", true, 3⟩) ∧
    (2 ≤ bytes.length → bytes.getD 0 0 = 0xFF → bytes.getD 1 0 = 0xFE →
      ¬(4 ≤ bytes.length ∧ bytes.getD 2 0 = 0x00 ∧ bytes.getD 3 0 = 0x00) →
      detectEncoding bytes = ⟨"UTF-16LE", true, 2⟩) ∧
    (2 ≤ bytes.length → bytes.getD 0 0 = 0xFE → bytes.getD 1 0 = 0xFF →
      detectEncoding bytes = ⟨"UTF-16BE", true, 2⟩) ∧
    (∀ encoding bomLength,
      decodeToUTF8 td bytes encoding bomLength =
        decodeToUTF8 td (bytes.drop bomLength) encoding 0) := by
  refine ⟨?_, ?_, ?_, ?_, ?_, ?_⟩
  · intro ha hb hc hd he
    unfold detectEncoding
    rw [if_pos ⟨ha, hb, hc, hd, he⟩]
  · intro ha hb hc hd he
    unfold detectEncoding
    rw [if_neg (by intro hx; omega), if_pos ⟨ha, hb, hc, hd, he⟩]
  · intro ha hb hc hd
    unfold detectEncoding
    rw [if_neg (by intro hx; omega), if_neg (by intro hx; omega),
      if_pos ⟨ha, hb, hc, hd⟩]
  · intro ha hb hc hd
    unfold detectEncoding
    rw [if_neg (by intro hx; exact hd ⟨hx.1, hx.2.2.2⟩), if_neg (by intro hx; omega),
      if_neg (by intro hx; omega), if_pos ⟨ha, hb, hc⟩]
  · intro ha hb hc
    unfold detectEncoding
    rw [if_neg (by intro hx; omega), if_neg (by intro hx; omega),
      if_neg (by intro hx; omega), if_neg (by intro hx; omega), if_pos ⟨ha, hb, hc⟩]
  · intro encoding bomLength
    rfl

/-- Witness for C7 at the five concrete BOM-led byte sequences, plus the
BOM-skipping decode equation at a concrete decoder. -/
theorem detectEncoding_bom_spec_witness :
    detectEncoding [0xFF, 0xFE, 0x00, 0x00, 0x41] = ⟨"UTF-32LE", true, 4⟩ ∧
    detectEncoding [0x00, 0x00, 0xFE, 0xFF] = ⟨"UTF-32BE", true, 4⟩ ∧
    detectEncoding [0xEF, 0xBB, 0xBF, 0x41] = ⟨"UTF-8", true, 3⟩ ∧
    detectEncoding [0xFF, 0xFE, 0x41, 0x00] = ⟨"UTF-16LE", true, 2⟩ ∧
    detectEncoding [0xFE, 0xFF, 0x00, 0x41] = ⟨"UTF-16BE", true, 2⟩ ∧
    decodeToUTF8 (fun _ bs => decodeWindows1252 bs) [0xEF, 0xBB, 0xBF, 0x41]
        "Windows-1252" 3 =
      decodeToUTF8 (fun _ bs => decodeWindows1252 bs)
        (([0xEF, 0xBB, 0xBF, 0x41] : List Nat).drop 3) "Windows-1252" 0 := by
  refine ⟨?_, ?_, ?_, ?_, ?_, ?_⟩
  · exact (detectEncoding_bom_spec [0xFF, 0xFE, 0x00, 0x00, 0x41] (fun _ bs => [])).1
      (by decide) (by decide) (by decide) (by decide) (by decide)
  · exact (detectEncoding_bom_spec [0x00, 0x00, 0xFE, 0xFF] (fun _ bs => [])).2.1
      (by decide) (by decide) (by decide) (by decide) (by decide)
  · exact (detectEncoding_bom_spec [0xEF, 0xBB, 0xBF, 0x41] (fun _ bs => [])).2.2.1
      (by decide) (by decide) (by decide) (by decide)
  · exact (detectEncoding_bom_spec [0xFF, 0xFE, 0x41, 0x00] (fun _ bs => [])).2.2.2.1
      (by decide) (by decide) (by decide) (by decide)
  · exact (detectEncoding_bom_spec [0xFE, 0xFF, 0x00, 0x41] (fun _ bs => [])).2.2.2.2.1
      (by decide) (by decide) (by decide)
  · exact (detectEncoding_bom_spec [0xEF, 0xBB, 0xBF, 0x41]
      (fun _ bs => decodeWindows1252 bs)).2.2.2.2.2 "Windows-1252" 3

/-- The NUL character. -/
def nulChar : Char := Char.ofNat 0

/-- The non-breaking space U+00A0. -/
def nbspChar : Char := Char.ofNat 0xA0

/-- `content.replace(/\r\n/g, '\n')`: left-to-right, resuming after each
replacement. -/
def replaceCRLF : List Char → List Char
  | [] => []
  | [c] => [c]
  | c1 :: c2 :: rest =>
    if c1 = '\r' ∧ c2 = '\n' then '\n' :: replaceCRLF rest
    else c1 :: replaceCRLF (c2 :: rest)

/-- Embeds `normalizeLineEndings(content)`: `\r\n` to `\n`, then lone `\r`
to `\n`. -/
def normalizeLineEndingsList (l : List Char) : List Char :=
  (replaceCRLF l).map (fun c => if c = '\r' then '\n' else c)

/-- `content.replace(/\0/g, '')`. -/
def removeNulls (l : List Char) : List Char :=
  l.filter (fun c => !(c = nulChar))

/-- `content.replace(/[‘’]/g, "'")`. -/
def smartSingleMap (l : List Char) : List Char :=
  l.map (fun c => if c = '‘' ∨ c = '’' then squote else c)

/-- `content.replace(/[“”]/g, '"')`. -/
def smartDoubleMap (l : List Char) : List Char :=
  l.map (fun c => if c = '“' ∨ c = '”' then '"' else c)

/-- Zero-width characters: U+200B to U+200D and U+FEFF. -/
def isZeroWidth (c : Char) : Bool :=
  (0x200B ≤ c.toNat && c.toNat ≤ 0x200D) || c.toNat = 0xFEFF

/-- `content.replace(/[​-‍﻿]/g, '')`. -/
def removeZeroWidth (l : List Char) : List Char :=
  l.filter (fun c => !isZeroWidth c)

/-- `content.replace(/\u00A0/g, ' ')`: non-breaking space to space. -/
def nbspMap (l : List Char) : List Char :=
  l.map (fun c => if c = nbspChar then ' ' else c)

/-- Matcher for `""([^"]*)""`: two quotes, a maximal run of non-quotes, two
quotes; returns the run and the rest after the match. -/
def matchQQ : List Char → Option (List Char × List Char)
  | c1 :: c2 :: t =>
    if c1 = '"' ∧ c2 = '"' then
      match t.dropWhile (fun c => !(c = '"')) with
      | d1 :: d2 :: u =>
        if d1 = '"' ∧ d2 = '"' then some (t.takeWhile (fun c => !(c = '"')), u)
        else none
      | _ => none
    else none
  | _ => none

/-- `line.replace(/(^|,)""([^"]*)""/g, '$1"$2"')` as a left-to-right scan.
`atStart` tracks whether the scan is still at string position 0 (where `^`
can match); on a failed match the scan advances one character.  `fuel`
bounds the recursion by the input length and the scan is the identity when
it runs out (it never does when `fuel` starts at the length). -/
def repl1F : Nat → List Char → Bool → List Char
  | 0, l, _ => l
  | _ + 1, [], _ => []
  | fuel + 1, c :: rest, true =>
    match matchQQ (c :: rest) with
    | some (content, u) => '"' :: (content ++ '"' :: repl1F fuel u false)
    | none =>
      if c = ',' then
        match matchQQ rest with
        | some (content, u) => ',' :: '"' :: (content ++ '"' :: repl1F fuel u false)
        | none => c :: repl1F fuel rest false
      else c :: repl1F fuel rest false
  | fuel + 1, c :: rest, false =>
    if c = ',' then
      match matchQQ rest with
      | some (content, u) => ',' :: '"' :: (content ++ '"' :: repl1F fuel u false)
      | none => c :: repl1F fuel rest false
    else c :: repl1F fuel rest false

/-- `line.replace(/"{3,}/g, '"')`: a maximal run of three or more quotes
collapses to one. -/
def repl2F : Nat → List Char → List Char
  | 0, l => l
  | _ + 1, [] => []
  | fuel + 1, c :: rest =>
    if c = '"' ∧ 2 ≤ (rest.takeWhile (fun c2 => c2 = '"')).length then
      '"' :: repl2F fuel (rest.dropWhile (fun c2 => c2 = '"'))
    else c :: repl2F fuel rest

/-- Matcher for `"(\d+(?:\.\d+)?)"`: a quote, digits, an optional dot with
digits, and a closing quote; returns the number text and the rest. -/
def matchNum : List Char → Option (List Char × List Char)
  | c0 :: t =>
    if c0 = '"' then
      if (t.takeWhile Char.isDigit).isEmpty then none
      else
        match t.dropWhile Char.isDigit with
        | c1 :: t2 =>
          if c1 = '"' then some (t.takeWhile Char.isDigit, t2)
          else if c1 = '.' then
            if (t2.takeWhile Char.isDigit).isEmpty then none
            else
              match t2.dropWhile Char.isDigit with
              | c2 :: u2 =>
                if c2 = '"' then
                  some (t.takeWhile Char.isDigit ++ '.' :: t2.takeWhile Char.isDigit, u2)
                else none
              | [] => none
          else none
        | [] => none
    else none
  | [] => none

/-- `line.replace(/"(\d+(?:\.\d+)?)"/g, callback)`: the callback strips the
quotes only when the number of quote characters before the match offset in
the pre-replace line is even; `qb` carries that count (each match, kept or
stripped, contributes its two quotes). -/
def repl3F : Nat → List Char → Nat → List Char
  | 0, l, _ => l
  | _ + 1, [], _ => []
  | fuel + 1, c :: rest, qb =>
    match matchNum (c :: rest) with
    | some (num, u) =>
      if qb % 2 = 0 then num ++ repl3F fuel u (qb + 2)
      else '"' :: (num ++ '"' :: repl3F fuel u (qb + 2))
    | none => c :: repl3F fuel rest (qb + if c = '"' then 1 else 0)

/-- First per-line replacement, with fuel set to the line length. -/
def repl1 (l : List Char) : List Char := repl1F l.length l true

/-- Second per-line replacement, with fuel set to the input length. -/
def repl2 (l : List Char) : List Char := repl2F l.length l

/-- Third per-line replacement, starting with zero quotes seen. -/
def repl3 (l : List Char) : List Char := repl3F l.length l 0

/-- The three replacements of `fixDoubleQuotedValues` on one line, applied
only to lines with non-blank content (`if (!line.trim()) return line`). -/
def fixLine (l : List Char) : List Char :=
  if l.all isJsWhitespace then l
  else repl3 (repl2 (repl1 l))

/-- JS `content.split(c)` for a single-character separator. -/
def splitChar (sep : Char) : List Char → List (List Char)
  | [] => [[]]
  | c :: rest =>
    match splitChar sep rest with
    | [] => [[c]]
    | h :: t => if c = sep then [] :: h :: t else (c :: h) :: t

/-- JS `parts.join(c)` for a single-character separator. -/
def joinWith (sep : Char) : List (List Char) → List Char
  | [] => []
  | [l] => l
  | l :: ls => l ++ sep :: joinWith sep ls

/-- Embeds `fixDoubleQuotedValues(content)`: split on `\n`, fix each line,
join back. -/
def fixDoubleQuotedValues (l : List Char) : List Char :=
  joinWith '\n' ((splitChar '\n' l).map fixLine)

/-- Embeds `cleanContent(content)`: NUL removal, smart-quote mapping,
zero-width removal, non-breaking-space mapping, then the double-quote
repair pass. -/
def cleanContent (l : List Char) : List Char :=
  fixDoubleQuotedValues (nbspMap (removeZeroWidth (smartDoubleMap (smartSingleMap
    (removeNulls l)))))

/-- The sanitizer of the loading pipeline: `normalizeLineEndings` followed by
`cleanContent` (the order used by `analyzeFile` and `preprocessCSV`). -/
def sanitizeList (l : List Char) : List Char :=
  cleanContent (normalizeLineEndingsList l)

/-- `sanitize` on strings. -/
def sanitize (s : String) : String :=
  ⟨sanitizeList s.data⟩

theorem mem_replaceCRLF (l : List Char) (c : Char) (h : c ∈ replaceCRLF l) :
    c ∈ l ∨ c = '\n' := by
  induction l using replaceCRLF.induct with
  | case1 => simp [replaceCRLF] at h
  | case2 c1 => rw [replaceCRLF] at h; left; exact h
  | case3 c1 c2 rest hc ih =>
    rw [replaceCRLF, if_pos hc] at h
    rcases List.mem_cons.mp h with h | h
    · right; exact h
    · rcases ih h with h | h
      · left; exact List.mem_cons_of_mem _ (List.mem_cons_of_mem _ h)
      · right; exact h
  | case4 c1 c2 rest hc ih =>
    rw [replaceCRLF, if_neg hc] at h
    rcases List.mem_cons.mp h with h | h
    · left; rw [h]; exact List.mem_cons_self _ _
    · rcases ih h with h | h
      · left; exact List.mem_cons_of_mem _ h
      · right; exact h

theorem replaceCRLF_eq_self (l : List Char) (h : '\r' ∉ l) : replaceCRLF l = l := by
  induction l using replaceCRLF.induct with
  | case1 => rw [replaceCRLF]
  | case2 c1 => rw [replaceCRLF]
  | case3 c1 c2 rest hc ih =>
    exact absurd (by rw [hc.1]; exact List.mem_cons_self _ _) h
  | case4 c1 c2 rest hc ih =>
    rw [replaceCRLF, if_neg hc, ih (fun hr => h (List.mem_cons_of_mem _ hr))]

theorem mem_normalizeLineEndingsList (l : List Char) (c : Char)
    (h : c ∈ normalizeLineEndingsList l) : c ∈ l ∨ c = '\n' := by
  rcases List.mem_map.mp h with ⟨a, ha, hc⟩
  by_cases hr : a = '\r'
  · right; rw [← hc, if_pos hr]
  · rw [if_neg hr] at hc
    rcases mem_replaceCRLF l a ha with h' | h'
    · left; rw [← hc]; exact h'
    · right; rw [← hc]; exact h'

theorem not_cr_mem_normalizeLineEndingsList (l : List Char) :
    '\r' ∉ normalizeLineEndingsList l := by
  intro h
  rcases List.mem_map.mp h with ⟨a, _, hc⟩
  by_cases hr : a = '\r'
  · rw [if_pos hr] at hc; exact absurd hc (by decide)
  · rw [if_neg hr] at hc; exact hr hc

theorem normalizeLineEndingsList_eq_self (l : List Char) (h : '\r' ∉ l) :
    normalizeLineEndingsList l = l := by
  unfold normalizeLineEndingsList
  rw [replaceCRLF_eq_self l h]
  have : l.map (fun c => if c = '\r' then '\n' else c) = l.map (fun c => c) :=
    List.map_congr_left (fun a ha => if_neg (fun hr : a = '\r' => h (hr ▸ ha)))
  rw [this, List.map_id']

theorem matchQQ_mem (l : List Char) (content u : List Char)
    (h : matchQQ l = some (content, u)) :
    (∀ c ∈ content, c ∈ l) ∧ (∀ c ∈ u, c ∈ l) := by
  match l with
  | [] => simp [matchQQ] at h
  | [c1] => simp [matchQQ] at h
  | c1 :: c2 :: t =>
    rw [matchQQ] at h
    have htmem : ∀ c ∈ t, c ∈ c1 :: c2 :: t := fun c hc =>
      List.mem_cons_of_mem _ (List.mem_cons_of_mem _ hc)
    by_cases h12 : c1 = '"' ∧ c2 = '"'
    · rw [if_pos h12] at h
      split at h
      · next d1 d2 u' heq =>
        split at h
        · simp only [Option.some.injEq, Prod.mk.injEq] at h
          obtain ⟨hcon, hu⟩ := h
          constructor
          · intro c hc
            rw [← hcon] at hc
            exact htmem c ((List.takeWhile_sublist _).mem hc)
          · intro c hc
            rw [← hu] at hc
            have : c ∈ t.dropWhile (fun c => !(c = '"')) := by
              rw [heq]
              exact List.mem_cons_of_mem _ (List.mem_cons_of_mem _ hc)
            exact htmem c ((List.dropWhile_sublist _).mem this)
        · simp at h
      · simp at h
    · rw [if_neg h12] at h
      simp at h

theorem matchQQ_eq_none (l : List Char) (h : '"' ∉ l) : matchQQ l = none := by
  match l with
  | [] => rfl
  | [c1] => rfl
  | c1 :: c2 :: t =>
    rw [matchQQ]
    rw [if_neg (fun h12 => h (by rw [h12.1]; exact List.mem_cons_self _ _))]

theorem matchNum_mem (l : List Char) (num u : List Char)
    (h : matchNum l = some (num, u)) :
    (∀ c ∈ num, c ∈ l) ∧ (∀ c ∈ u, c ∈ l) := by
  match l with
  | [] => simp [matchNum] at h
  | c0 :: t =>
    rw [matchNum] at h
    have htmem : ∀ c ∈ t, c ∈ c0 :: t := fun c hc => List.mem_cons_of_mem _ hc
    by_cases h0 : c0 = '"'
    · rw [if_pos h0] at h
      by_cases hd1 : (t.takeWhile Char.isDigit).isEmpty
      · rw [if_pos hd1] at h; simp at h
      · rw [if_neg hd1] at h
        have htake : ∀ c ∈ t.takeWhile Char.isDigit, c ∈ c0 :: t := fun c hc =>
          htmem c ((List.takeWhile_sublist _).mem hc)
        split at h
        · next c1 t2 heq =>
          have ht2 : ∀ c ∈ c1 :: t2, c ∈ c0 :: t := fun c hc =>
            htmem c ((List.dropWhile_sublist _).mem (heq ▸ hc))
          by_cases h1 : c1 = '"'
          · rw [if_pos h1] at h
            simp only [Option.some.injEq, Prod.mk.injEq] at h
            obtain ⟨hnum, hu⟩ := h
            refine ⟨fun c hc => htake c (hnum ▸ hc), fun c hc => ?_⟩
            exact ht2 c (List.mem_cons_of_mem _ (hu ▸ hc))
          · rw [if_neg h1] at h
            by_cases h1d : c1 = '.'
            · rw [if_pos h1d] at h
              by_cases hd2 : (t2.takeWhile Char.isDigit).isEmpty
              · rw [if_pos hd2] at h; simp at h
              · rw [if_neg hd2] at h
                have ht2m : ∀ c ∈ t2, c ∈ c0 :: t := fun c hc =>
                  ht2 c (List.mem_cons_of_mem _ hc)
                split at h
                · next c2 u2 heq2 =>
                  by_cases h2 : c2 = '"'
                  · rw [if_pos h2] at h
                    simp only [Option.some.injEq, Prod.mk.injEq] at h
                    obtain ⟨hnum, hu⟩ := h
                    constructor
                    · intro c hc
                      rw [← hnum] at hc
                      rcases List.mem_append.mp hc with hc | hc
                      · exact htake c hc
                      · rcases List.mem_cons.mp hc with hc | hc
                        · rw [hc, ← h1d]; exact ht2 c1 (List.mem_cons_self _ _)
                        · exact ht2m c ((List.takeWhile_sublist _).mem hc)
                    · intro c hc
                      rw [← hu] at hc
                      exact ht2m c ((List.dropWhile_sublist _).mem
                        (heq2 ▸ List.mem_cons_of_mem _ hc))
                  · rw [if_neg h2] at h; simp at h
                · simp at h
            · rw [if_neg h1d] at h; simp at h
        · simp at h
    · rw [if_neg h0] at h; simp at h

theorem matchNum_eq_none (l : List Char) (h : '"' ∉ l) : matchNum l = none := by
  match l with
  | [] => rfl
  | c0 :: t =>
    rw [matchNum]
    rw [if_neg (fun h0 => h (by rw [h0]; exact List.mem_cons_self _ _))]

theorem mem_repl1F : ∀ (fuel : Nat) (l : List Char) (s : Bool) (c : Char),
    c ∈ repl1F fuel l s → c ∈ l ∨ c = '"' := by
  intro fuel
  induction fuel with
  | zero => intro l s c h; left; exact h
  | succ fuel ih =>
    intro l s c h
    match l with
    | [] =>
      cases s <;> (rw [repl1F] at h; exact absurd h (List.not_mem_nil c))
    | c0 :: rest =>
      have hadv : c ∈ c0 :: repl1F fuel rest false → c ∈ c0 :: rest ∨ c = '"' := by
        intro hx
        rcases List.mem_cons.mp hx with hx | hx
        · left; rw [hx]; exact List.mem_cons_self _ _
        · rcases ih rest false c hx with hx | hx
          · left; exact List.mem_cons_of_mem _ hx
          · right; exact hx
      have hcomma : ∀ content u, c0 = ',' → matchQQ rest = some (content, u) →
          c ∈ ',' :: '"' :: (content ++ '"' :: repl1F fuel u false) →
          c ∈ c0 :: rest ∨ c = '"' := by
        intro content u hc0 hqq hx
        rcases List.mem_cons.mp hx with hx | hx
        · left; rw [hx, ← hc0]; exact List.mem_cons_self _ _
        · rcases List.mem_cons.mp hx with hx | hx
          · right; exact hx
          · rcases List.mem_append.mp hx with hx | hx
            · left
              exact List.mem_cons_of_mem _ ((matchQQ_mem rest content u hqq).1 c hx)
            · rcases List.mem_cons.mp hx with hx | hx
              · right; exact hx
              · rcases ih u false c hx with hx | hx
                · left
                  exact List.mem_cons_of_mem _ ((matchQQ_mem rest content u hqq).2 c hx)
                · right; exact hx
      cases s with
      | true =>
        rw [repl1F] at h
        rcases hqq : matchQQ (c0 :: rest) with _ | ⟨content, u⟩ <;> rw [hqq] at h
        · dsimp only at h
          by_cases hc0 : c0 = ','
          · rw [if_pos hc0] at h
            rcases hqq2 : matchQQ rest with _ | ⟨content, u⟩ <;> rw [hqq2] at h
            · exact hadv h
            · exact hcomma content u hc0 hqq2 h
          · rw [if_neg hc0] at h
            exact hadv h
        · dsimp only at h
          rcases List.mem_cons.mp h with h | h
          · right; exact h
          · rcases List.mem_append.mp h with h | h
            · left; exact (matchQQ_mem _ content u hqq).1 c h
            · rcases List.mem_cons.mp h with h | h
              · right; exact h
              · rcases ih u false c h with h | h
                · left; exact (matchQQ_mem _ content u hqq).2 c h
                · right; exact h
      | false =>
        rw [repl1F] at h
        by_cases hc0 : c0 = ','
        · rw [if_pos hc0] at h
          rcases hqq2 : matchQQ rest with _ | ⟨content, u⟩ <;> rw [hqq2] at h
          · exact hadv h
          · exact hcomma content u hc0 hqq2 h
        · rw [if_neg hc0] at h
          exact hadv h

theorem repl1F_eq_self : ∀ (fuel : Nat) (l : List Char) (s : Bool),
    '"' ∉ l → repl1F fuel l s = l := by
  intro fuel
  induction fuel with
  | zero => intro l s h; rfl
  | succ fuel ih =>
    intro l s h
    match l with
    | [] => cases s <;> rw [repl1F]
    | c0 :: rest =>
      have hrest : '"' ∉ rest := fun hr => h (List.mem_cons_of_mem _ hr)
      have hbody : (if c0 = ',' then
          (match matchQQ rest with
           | some (content, u) => ',' :: '"' :: (content ++ '"' :: repl1F fuel u false)
           | none => c0 :: repl1F fuel rest false)
          else c0 :: repl1F fuel rest false) = c0 :: rest := by
        by_cases hc0 : c0 = ','
        · rw [if_pos hc0, matchQQ_eq_none rest hrest]
          rw [ih rest false hrest]
        · rw [if_neg hc0, ih rest false hrest]
      cases s with
      | true =>
        rw [repl1F, matchQQ_eq_none (c0 :: rest) h]
        exact hbody
      | false =>
        rw [repl1F]
        exact hbody

theorem mem_repl2F : ∀ (fuel : Nat) (l : List Char) (c : Char),
    c ∈ repl2F fuel l → c ∈ l ∨ c = '"' := by
  intro fuel
  induction fuel with
  | zero => intro l c h; left; exact h
  | succ fuel ih =>
    intro l c h
    match l with
    | [] => rw [repl2F] at h; exact absurd h (List.not_mem_nil c)
    | c0 :: rest =>
      rw [repl2F] at h
      by_cases hc : c0 = '"' ∧ 2 ≤ (rest.takeWhile (fun c2 => c2 = '"')).length
      · rw [if_pos hc] at h
        rcases List.mem_cons.mp h with h | h
        · right; exact h
        · rcases ih _ c h with h | h
          · left; exact List.mem_cons_of_mem _ ((List.dropWhile_sublist _).mem h)
          · right; exact h
      · rw [if_neg hc] at h
        rcases List.mem_cons.mp h with h | h
        · left; rw [h]; exact List.mem_cons_self _ _
        · rcases ih rest c h with h | h
          · left; exact List.mem_cons_of_mem _ h
          · right; exact h

theorem repl2F_eq_self : ∀ (fuel : Nat) (l : List Char), '"' ∉ l → repl2F fuel l = l := by
  intro fuel
  induction fuel with
  | zero => intro l h; rfl
  | succ fuel ih =>
    intro l h
    match l with
    | [] => rw [repl2F]
    | c0 :: rest =>
      rw [repl2F]
      have h0 : ¬ (c0 = '"' ∧ 2 ≤ (rest.takeWhile (fun c2 => c2 = '"')).length) :=
        fun hc => h (by rw [hc.1]; exact List.mem_cons_self _ _)
      rw [if_neg h0, ih rest (fun hr => h (List.mem_cons_of_mem _ hr))]

theorem mem_repl3F : ∀ (fuel : Nat) (l : List Char) (qb : Nat) (c : Char),
    c ∈ repl3F fuel l qb → c ∈ l ∨ c = '"' := by
  intro fuel
  induction fuel with
  | zero => intro l qb c h; left; exact h
  | succ fuel ih =>
    intro l qb c h
    match l with
    | [] => rw [repl3F] at h; exact absurd h (List.not_mem_nil c)
    | c0 :: rest =>
      rw [repl3F] at h
      rcases hnm : matchNum (c0 :: rest) with _ | ⟨num, u⟩ <;> rw [hnm] at h
      · dsimp only at h
        rcases List.mem_cons.mp h with h | h
        · left; rw [h]; exact List.mem_cons_self _ _
        · rcases ih rest _ c h with h | h
          · left; exact List.mem_cons_of_mem _ h
          · right; exact h
      · dsimp only at h
        by_cases hqb : qb % 2 = 0
        · rw [if_pos hqb] at h
          rcases List.mem_append.mp h with h | h
          · left; exact (matchNum_mem _ num u hnm).1 c h
          · rcases ih u _ c h with h | h
            · left; exact (matchNum_mem _ num u hnm).2 c h
            · right; exact h
        · rw [if_neg hqb] at h
          rcases List.mem_cons.mp h with h | h
          · right; exact h
          · rcases List.mem_append.mp h with h | h
            · left; exact (matchNum_mem _ num u hnm).1 c h
            · rcases List.mem_cons.mp h with h | h
              · right; exact h
              · rcases ih u _ c h with h | h
                · left; exact (matchNum_mem _ num u hnm).2 c h
                · right; exact h

theorem repl3F_eq_self : ∀ (fuel : Nat) (l : List Char) (qb : Nat),
    '"' ∉ l → repl3F fuel l qb = l := by
  intro fuel
  induction fuel with
  | zero => intro l qb h; rfl
  | succ fuel ih =>
    intro l qb h
    match l with
    | [] => rw [repl3F]
    | c0 :: rest =>
      rw [repl3F, matchNum_eq_none (c0 :: rest) h]
      dsimp only
      rw [ih rest _ (fun hr => h (List.mem_cons_of_mem _ hr))]

theorem mem_fixLine (l : List Char) (c : Char) (h : c ∈ fixLine l) :
    c ∈ l ∨ c = '"' := by
  unfold fixLine at h
  split at h
  · left; exact h
  · unfold repl3 repl2 repl1 at h
    rcases mem_repl3F _ _ _ c h with h | h
    · rcases mem_repl2F _ _ c h with h | h
      · rcases mem_repl1F _ _ _ c h with h | h
        · left; exact h
        · right; exact h
      · right; exact h
    · right; exact h

theorem fixLine_eq_self (l : List Char) (h : '"' ∉ l) : fixLine l = l := by
  unfold fixLine
  split
  · rfl
  · unfold repl3 repl2 repl1
    rw [repl1F_eq_self _ _ _ h, repl2F_eq_self _ _ h, repl3F_eq_self _ _ _ h]

theorem splitChar_ne_nil (sep : Char) (l : List Char) : splitChar sep l ≠ [] := by
  induction l with
  | nil => rw [splitChar]; simp
  | cons c rest ih =>
    rw [splitChar]
    rcases hs : splitChar sep rest with _ | ⟨h, t⟩
    · exact absurd hs ih
    · dsimp only
      split <;> simp

theorem mem_splitChar (sep : Char) (l : List Char) (p : List Char) (c : Char)
    (hp : p ∈ splitChar sep l) (hc : c ∈ p) : c ∈ l := by
  induction l generalizing p with
  | nil =>
    rw [splitChar] at hp
    simp at hp
    subst hp
    simp at hc
  | cons c0 rest ih =>
    rw [splitChar] at hp
    rcases hs : splitChar sep rest with _ | ⟨h, t⟩
    · exact absurd hs (splitChar_ne_nil sep rest)
    · rw [hs] at hp
      dsimp only at hp
      by_cases hc0 : c0 = sep
      · rw [if_pos hc0] at hp
        rcases List.mem_cons.mp hp with hp | hp
        · subst hp; simp at hc
        · exact List.mem_cons_of_mem _ (ih p (by rw [hs]; exact hp) hc)
      · rw [if_neg hc0] at hp
        rcases List.mem_cons.mp hp with hp | hp
        · subst hp
          rcases List.mem_cons.mp hc with hc' | hc'
          · rw [hc']; exact List.mem_cons_self _ _
          · exact List.mem_cons_of_mem _
              (ih h (by rw [hs]; exact List.mem_cons_self _ _) hc')
        · exact List.mem_cons_of_mem _
            (ih p (by rw [hs]; exact List.mem_cons_of_mem _ hp) hc)

theorem joinWith_nil (sep : Char) : joinWith sep [] = [] := rfl

theorem joinWith_one (sep : Char) (l : List Char) : joinWith sep [l] = l := rfl

theorem joinWith_cons2 (sep : Char) (l l2 : List Char) (ls : List (List Char)) :
    joinWith sep (l :: l2 :: ls) = l ++ sep :: joinWith sep (l2 :: ls) := rfl

theorem mem_joinWith (sep : Char) (ps : List (List Char)) (c : Char)
    (h : c ∈ joinWith sep ps) : c = sep ∨ ∃ p ∈ ps, c ∈ p := by
  induction ps with
  | nil => rw [joinWith_nil] at h; exact absurd h (List.not_mem_nil c)
  | cons p ps ih =>
    match ps with
    | [] =>
      rw [joinWith_one] at h
      right; exact ⟨p, List.mem_cons_self _ _, h⟩
    | p2 :: ps2 =>
      rw [joinWith_cons2] at h
      rcases List.mem_append.mp h with h | h
      · right; exact ⟨p, List.mem_cons_self _ _, h⟩
      · rcases List.mem_cons.mp h with h | h
        · left; exact h
        · rcases ih h with h | ⟨q, hq, hcq⟩
          · left; exact h
          · right; exact ⟨q, List.mem_cons_of_mem _ hq, hcq⟩

theorem joinWith_splitChar (sep : Char) (l : List Char) :
    joinWith sep (splitChar sep l) = l := by
  induction l with
  | nil => rfl
  | cons c rest ih =>
    rw [splitChar]
    rcases hs : splitChar sep rest with _ | ⟨h, t⟩
    · exact absurd hs (splitChar_ne_nil sep rest)
    · rw [hs] at ih
      dsimp only
      by_cases hc : c = sep
      · rw [if_pos hc, joinWith_cons2, List.nil_append, ih, hc]
      · rw [if_neg hc]
        match t with
        | [] =>
          rw [joinWith_one] at ih ⊢
          rw [ih]
        | t1 :: ts =>
          rw [joinWith_cons2] at ih ⊢
          rw [List.cons_append, ih]

theorem mem_fixDoubleQuotedValues (l : List Char) (c : Char)
    (h : c ∈ fixDoubleQuotedValues l) : c ∈ l ∨ c = '"' ∨ c = '\n' := by
  unfold fixDoubleQuotedValues at h
  rcases mem_joinWith _ _ _ h with h | ⟨p, hp, hcp⟩
  · right; right; exact h
  · rcases List.mem_map.mp hp with ⟨p0, hp0, hpe⟩
    rcases mem_fixLine p0 c (hpe ▸ hcp) with h | h
    · left; exact mem_splitChar _ _ _ _ hp0 h
    · right; left; exact h

theorem fixDoubleQuotedValues_eq_self (l : List Char) (h : '"' ∉ l) :
    fixDoubleQuotedValues l = l := by
  unfold fixDoubleQuotedValues
  have hmap : (splitChar '\n' l).map fixLine = (splitChar '\n' l).map (fun p => p) := by
    refine List.map_congr_left (fun p hp => ?_)
    exact fixLine_eq_self p (fun hq => h (mem_splitChar _ _ _ _ hp hq))
  rw [hmap, List.map_id', joinWith_splitChar]

/-- Characters of the sanitized text come from the input or from the set the
cleaning steps can introduce: a line feed, an ASCII apostrophe, an ASCII
double quote, or a space. -/
theorem mem_sanitizeList (l : List Char) (c : Char) (h : c ∈ sanitizeList l) :
    c ∈ l ∨ c = '\n' ∨ c = squote ∨ c = '"' ∨ c = ' ' := by
  unfold sanitizeList cleanContent at h
  rcases mem_fixDoubleQuotedValues _ _ h with h | h | h
  · rcases List.mem_map.mp h with ⟨a4, ha4, hc4⟩
    by_cases hA : a4 = nbspChar
    · rw [if_pos hA] at hc4; right; right; right; right; exact hc4.symm
    · rw [if_neg hA] at hc4
      subst hc4
      have ha3 := (List.mem_filter.mp ha4).1
      rcases List.mem_map.mp ha3 with ⟨a2, ha2, hc2⟩
      by_cases hD : a2 = '“' ∨ a2 = '”'
      · rw [if_pos hD] at hc2; right; right; right; left; exact hc2.symm
      · rw [if_neg hD] at hc2
        subst hc2
        rcases List.mem_map.mp ha2 with ⟨a1, ha1, hc1⟩
        by_cases hS : a1 = '‘' ∨ a1 = '’'
        · rw [if_pos hS] at hc1; right; right; left; exact hc1.symm
        · rw [if_neg hS] at hc1
          subst hc1
          have ha0 := (List.mem_filter.mp ha1).1
          rcases mem_normalizeLineEndingsList _ _ ha0 with h0 | h0
          · left; exact h0
          · right; left; exact h0
  · right; right; right; left; exact h
  · right; left; exact h

/-- No character stripped by the sanitizer survives in its output: carriage
returns, NULs, zero-width characters, the four smart quotes, and the
non-breaking space are all absent from `sanitizeList l` for every input. -/
theorem sanitizeList_stripped (l : List Char) (c : Char) (h : c ∈ sanitizeList l) :
    c ≠ '\r' ∧ c ≠ nulChar ∧ isZeroWidth c = false ∧
    c ≠ '‘' ∧ c ≠ '’' ∧ c ≠ '“' ∧ c ≠ '”' ∧ c ≠ nbspChar := by
  unfold sanitizeList cleanContent at h
  rcases mem_fixDoubleQuotedValues _ _ h with h | h | h
  · rcases List.mem_map.mp h with ⟨a4, ha4, hc4⟩
    by_cases hA : a4 = nbspChar
    · rw [if_pos hA] at hc4; rw [← hc4]; decide
    · rw [if_neg hA] at hc4
      subst hc4
      obtain ⟨ha3, hzw⟩ := List.mem_filter.mp ha4
      rcases List.mem_map.mp ha3 with ⟨a2, ha2, hc2⟩
      by_cases hD : a2 = '“' ∨ a2 = '”'
      · rw [if_pos hD] at hc2
        rw [← hc2]; decide
      · rw [if_neg hD] at hc2
        subst hc2
        rcases List.mem_map.mp ha2 with ⟨a1, ha1, hc1⟩
        by_cases hS : a1 = '‘' ∨ a1 = '’'
        · rw [if_pos hS] at hc1
          rw [← hc1]; decide
        · rw [if_neg hS] at hc1
          subst hc1
          obtain ⟨ha0, hnul⟩ := List.mem_filter.mp ha1
          have hcr : a1 ≠ '\r' := fun hx =>
            not_cr_mem_normalizeLineEndingsList l (hx ▸ ha0)
          refine ⟨hcr, by simpa using hnul, by simpa using hzw,
            fun hx => hS (Or.inl hx), fun hx => hS (Or.inr hx),
            fun hx => hD (Or.inl hx), fun hx => hD (Or.inr hx), hA⟩
  · rw [h]; decide
  · rw [h]; decide

/-- C6 counterexample: the control character U+0001 passes through the
sanitizer untouched, violating the claimed exclusion of all control
characters other than tab and line feed. -/
theorem sanitize_control_char_counterexample :
    sanitize "\u0001" = "\u0001" ∧ '\u0001' ∈ (sanitize "\u0001").data ∧
    '\u0001'.toNat < 32 ∧ '\u0001' ≠ '\t' ∧ '\u0001' ≠ '\n' := by
  exact ⟨by decide, by decide, by decide, by decide, by decide⟩

/-- C6 amended: the sanitized text (normalizeLineEndings then cleanContent)
contains no carriage return, no NUL, no zero-width character
(U+200B-U+200D, U+FEFF) and no smart quote (U+2018/U+2019/U+201C/U+201D);
control characters other than NUL and the removed carriage returns are not
stripped, so the claim's blanket exclusion of controls besides tab and
newline is dropped. -/
theorem sanitize_no_bad_chars (s : String) (c : Char) (h : c ∈ (sanitize s).data) :
    c ≠ '\r' ∧ c ≠ nulChar ∧ isZeroWidth c = false ∧
    c ≠ '‘' ∧ c ≠ '’' ∧ c ≠ '“' ∧ c ≠ '”' := by
  have hst := sanitizeList_stripped s.data c h
  exact ⟨hst.1, hst.2.1, hst.2.2.1, hst.2.2.2.1, hst.2.2.2.2.1,
    hst.2.2.2.2.2.1, hst.2.2.2.2.2.2.1⟩

/-- Witness for C6's amended theorem at a concrete character of a concrete
sanitized string. -/
theorem sanitize_no_bad_chars_witness :
    'a' ≠ '\r' ∧ 'a' ≠ nulChar ∧ isZeroWidth 'a' = false ∧
    'a' ≠ '‘' ∧ 'a' ≠ '’' ∧ 'a' ≠ '“' ∧ 'a' ≠ '”' :=
  sanitize_no_bad_chars "a,b" 'a' (by decide)

/-- C2 counterexample: the double-quote repair pass cascades across
applications.  On `,""""a""` the first pass rewrites the leading `,""""` to
`,""` giving `,""a""`, which only the second pass collapses to `,"a"`. -/
theorem sanitize_not_idempotent_counterexample :
    sanitize (sanitize ",\"\"\"\"a\"\"") ≠ sanitize ",\"\"\"\"a\"\"" ∧
    sanitize ",\"\"\"\"a\"\"" = ",\"\"a\"\"" ∧
    sanitize (sanitize ",\"\"\"\"a\"\"") = ",\"a\"" := by
  exact ⟨by decide, by decide, by decide⟩

theorem no_quote_sanitizeList (s : String)
    (h : ∀ c ∈ s.data, c ≠ '"' ∧ c ≠ '“' ∧ c ≠ '”') :
    '"' ∉ sanitizeList s.data := by
  intro hq
  have hup : ∀ a, a ∈ removeNulls (normalizeLineEndingsList s.data) →
      a = '"' ∨ a = '“' ∨ a = '”' → False := by
    intro a ha hcases
    have ha0 := (List.mem_filter.mp ha).1
    rcases mem_normalizeLineEndingsList _ _ ha0 with hmem | hnl
    · rcases hcases with hx | hx | hx <;>
        (first
          | exact (h a hmem).1 hx
          | exact (h a hmem).2.1 hx
          | exact (h a hmem).2.2 hx)
    · rw [hnl] at hcases
      rcases hcases with hx | hx | hx <;> exact absurd hx (by decide)
  have hinput : '"' ∉ nbspMap (removeZeroWidth (smartDoubleMap (smartSingleMap
      (removeNulls (normalizeLineEndingsList s.data))))) := by
    intro hc
    rcases List.mem_map.mp hc with ⟨a4, ha4, hc4⟩
    have ha4q : a4 = '"' := by
      by_cases hA : a4 = nbspChar
      · rw [if_pos hA] at hc4; exact absurd hc4 (by decide)
      · rw [if_neg hA] at hc4; exact hc4
    subst ha4q
    have ha3 := (List.mem_filter.mp ha4).1
    rcases List.mem_map.mp ha3 with ⟨a2, ha2, hc2⟩
    by_cases hD : a2 = '“' ∨ a2 = '”'
    · rcases List.mem_map.mp ha2 with ⟨a1, ha1, hc1⟩
      by_cases hS : a1 = '‘' ∨ a1 = '’'
      · rw [if_pos hS] at hc1
        rw [← hc1] at hD
        rcases hD with hx | hx <;> exact absurd hx (by decide)
      · rw [if_neg hS] at hc1
        rw [← hc1] at hD
        exact hup a1 ha1 (Or.inr hD)
    · rw [if_neg hD] at hc2
      subst hc2
      rcases List.mem_map.mp ha2 with ⟨a1, ha1, hc1⟩
      by_cases hS : a1 = '‘' ∨ a1 = '’'
      · rw [if_pos hS] at hc1
        exact absurd hc1 (by decide)
      · rw [if_neg hS] at hc1
        exact hup a1 ha1 (Or.inl hc1)
  have hy : sanitizeList s.data = nbspMap (removeZeroWidth (smartDoubleMap
      (smartSingleMap (removeNulls (normalizeLineEndingsList s.data))))) := by
    unfold sanitizeList cleanContent
    exact fixDoubleQuotedValues_eq_self _ hinput
  rw [hy] at hq
  exact hinput hq

/-- C2 amended: the sanitizer is not idempotent in general (the quote-repair
pass can cascade), but it is idempotent on every input containing no double
quote character, neither ASCII `"` nor the smart double quotes U+201C and
U+201D. -/
theorem sanitize_idempotent_of_no_double_quote (s : String)
    (h : ∀ c ∈ s.data, c ≠ '"' ∧ c ≠ '“' ∧ c ≠ '”') :
    sanitize (sanitize s) = sanitize s := by
  have hq : '"' ∉ sanitizeList s.data := no_quote_sanitizeList s h
  set y := sanitizeList s.data with hy
  have hst : ∀ c ∈ y, c ≠ '\r' ∧ c ≠ nulChar ∧ isZeroWidth c = false ∧
      c ≠ '‘' ∧ c ≠ '’' ∧ c ≠ '“' ∧ c ≠ '”' ∧ c ≠ nbspChar :=
    fun c hc => sanitizeList_stripped s.data c hc
  have hnorm : normalizeLineEndingsList y = y :=
    normalizeLineEndingsList_eq_self y (fun hr => (hst _ hr).1 rfl)
  have hnull : removeNulls y = y :=
    List.filter_eq_self.mpr (fun c hc => by
      simpa using (hst c hc).2.1)
  have hsmartS : smartSingleMap y = y := by
    unfold smartSingleMap
    rw [List.map_congr_left (fun c hc => if_neg (fun hx => by
      rcases hx with hx | hx
      · exact (hst c hc).2.2.2.1 hx
      · exact (hst c hc).2.2.2.2.1 hx)), List.map_id']
  have hsmartD : smartDoubleMap y = y := by
    unfold smartDoubleMap
    rw [List.map_congr_left (fun c hc => if_neg (fun hx => by
      rcases hx with hx | hx
      · exact (hst c hc).2.2.2.2.2.1 hx
      · exact (hst c hc).2.2.2.2.2.2.1 hx)), List.map_id']
  have hzw : removeZeroWidth y = y :=
    List.filter_eq_self.mpr (fun c hc => by
      simp [(hst c hc).2.2.1])
  have hnbsp : nbspMap y = y := by
    unfold nbspMap
    rw [List.map_congr_left (fun c hc =>
      if_neg (fun hx => (hst c hc).2.2.2.2.2.2.2 hx)), List.map_id']
  have hfix : fixDoubleQuotedValues y = y := fixDoubleQuotedValues_eq_self y hq
  show String.mk (sanitizeList (sanitize s).data) = sanitize s
  have : sanitizeList (sanitize s).data = y := by
    show sanitizeList y = y
    unfold sanitizeList cleanContent
    rw [hnorm, hnull, hsmartS, hsmartD, hzw, hnbsp, hfix]
  rw [this]
  rfl

/-- Witness for C2's amended theorem on a concrete quote-free input. -/
theorem sanitize_idempotent_witness :
    sanitize (sanitize "a,b\r\nc") = sanitize "a,b\r\nc" :=
  sanitize_idempotent_of_no_double_quote "a,b\r\nc" (by decide)

/-- Carriage return or line feed (the class `[\r\n]`). -/
def isCRLFChar (c : Char) : Bool := c = '\r' || c = '\n'

/-- Quote characters removed by both column-name sanitizers: `"`, the
apostrophe, and the backquote. -/
def isQuoteChar (c : Char) : Bool := c = '"' || c = squote || c = bquote

/-- One pass of a `replace(/X+/g, r)` run-collapsing substitution: a maximal
run of characters satisfying `p` becomes the single character `rep`.
`inRun` remembers whether the previous character was part of a run. -/
def collapseRunsGo (p : Char → Bool) (rep : Char) : List Char → Bool → List Char
  | [], _ => []
  | c :: rest, inRun =>
    if p c then
      if inRun then collapseRunsGo p rep rest true
      else rep :: collapseRunsGo p rep rest true
    else c :: collapseRunsGo p rep rest false

def collapseRuns (p : Char → Bool) (rep : Char) (l : List Char) : List Char :=
  collapseRunsGo p rep l false

/-- Embeds the engine method `sanitizeColumnName` of duckdb-engine.js:
newline runs to one space, quotes removed, whitespace runs to one space,
trim, truncate to 64. -/
def engineSanitizeColumnName (name : List Char) : List Char :=
  (jsTrim (collapseRuns isJsWhitespace ' '
    ((collapseRuns isCRLFChar ' ' name).filter (fun c => !isQuoteChar c)))).take 64

/-- ASCII word characters, the class `\w`. -/
def isWordChar (c : Char) : Bool := isAsciiLetter c || c.isDigit || c = '_'

/-- JS `/^_|_$/g`: one leading and one trailing underscore are removed. -/
def stripUnderscoreEnds (l : List Char) : List Char :=
  let l1 := match l with
    | '_' :: rest => rest
    | other => other
  if l1.getLast? = some '_' then l1.dropLast else l1

/-- Embeds the detection module's `sanitizeColumnName(name)`: whitespace
normalisation, quote removal, `[^\w\s_-]` to underscore, spaces to
underscores, underscore collapsing and trimming, digit-start prefix, empty
fallback to `column`, truncation to 64. -/
def sanitizeColumnName (name : List Char) : List Char :=
  if name = [] then "column".data
  else
    let s1 := jsTrim (collapseRuns isJsWhitespace ' ' (collapseRuns isCRLFChar ' ' name))
    let s2 := s1.filter (fun c => !isQuoteChar c)
    let s3 := s2.map (fun c => if !(isWordChar c || isJsWhitespace c || c = '-') then '_' else c)
    let s4 := collapseRuns isJsWhitespace '_' s3
    let s5 := collapseRuns (fun c => c = '_') '_' s4
    let s6 := stripUnderscoreEnds s5
    let s7 := match s6 with
      | c :: _ => if c.isDigit then '_' :: s6 else s6
      | [] => s6
    let s8 := if s7 = [] then "column".data else s7
    s8.take 64

/-- The `seen.get(key) || 0` read on the Map, modelled as an association
list whose most recent binding is first. -/
def mapGet (m : List (List Char × Nat)) (k : List Char) : Nat :=
  match m.lookup k with
  | some v => v
  | none => 0

/-- The empty-name normalisation of `makeUniqueColumnNames`. -/
def baseName (n : List Char) : List Char :=
  if jsTrim n = [] then "column".data else n

/-- The loop of `makeUniqueColumnNames`: empty or blank names become
`column`, the per-lower-cased-base counter picks the `_N` suffix, and the
counter is incremented whether or not a suffix was attached. -/
def makeUniqueGo : List (List Char) → List (List Char × Nat) → List (List Char)
  | [], _ => []
  | n :: rest, seen =>
    let name := baseName n
    let counter := mapGet seen (jsToLower name)
    let finalName := if 0 < counter then name ++ '_' :: (Nat.repr counter).data else name
    finalName :: makeUniqueGo rest ((jsToLower name, counter + 1) :: seen)

/-- Embeds `makeUniqueColumnNames(names)`. -/
def makeUniqueColumnNames (names : List (List Char)) : List (List Char) :=
  makeUniqueGo names []

theorem mapGet_cons_same (m : List (List Char × Nat)) (k : List Char) (v : Nat) :
    mapGet ((k, v) :: m) k = v := by
  simp [mapGet, List.lookup]

theorem mapGet_cons_ne (m : List (List Char × Nat)) (k k2 : List Char) (v : Nat)
    (h : k ≠ k2) : mapGet ((k2, v) :: m) k = mapGet m k := by
  unfold mapGet
  rw [show List.lookup k ((k2, v) :: m) = List.lookup k m by
    simp only [List.lookup]
    rw [show (k == k2) = false from beq_eq_false_iff_ne.mpr h]]

theorem makeUniqueGo_length : ∀ (names : List (List Char)) (seen : List (List Char × Nat)),
    (makeUniqueGo names seen).length = names.length := by
  intro names
  induction names with
  | nil => intro seen; rfl
  | cons n rest ih => intro seen; simp [makeUniqueGo, ih]

theorem makeUniqueGo_getD (names : List (List Char)) :
    ∀ (seen : List (List Char × Nat)) (prev : List (List Char)),
    (∀ k, mapGet seen k = ((prev.filter (fun b => jsToLower b = k)).length)) →
    ∀ i, i < names.length →
    (makeUniqueGo names seen).getD i [] =
      (let b := baseName (names.getD i []);
       let c := (((prev ++ (names.take i).map baseName).filter
         (fun p => jsToLower p = jsToLower b)).length);
       if 0 < c then b ++ '_' :: (Nat.repr c).data else b) := by
  induction names with
  | nil => intro seen prev hinv i hi; exact absurd hi (by simp)
  | cons n rest ih =>
    intro seen prev hinv i hi
    match i with
    | 0 =>
      simp only [makeUniqueGo, List.getD_cons_zero, List.take_zero, List.map_nil,
        List.append_nil]
      rw [hinv (jsToLower (baseName n))]
    | i + 1 =>
      simp only [makeUniqueGo, List.getD_cons_succ]
      have hinv2 : ∀ k, mapGet ((jsToLower (baseName n), mapGet seen (jsToLower (baseName n)) + 1) :: seen) k =
          (((prev ++ [baseName n]).filter (fun b => jsToLower b = k)).length) := by
        intro k
        by_cases hk : jsToLower (baseName n) = k
        · rw [← hk, mapGet_cons_same, List.filter_append, List.length_append,
            hinv (jsToLower (baseName n))]
          simp
        · rw [mapGet_cons_ne _ _ _ _ (Ne.symm hk), hinv k, List.filter_append,
            List.length_append]
          simp [hk]
      have := ih ((jsToLower (baseName n), mapGet seen (jsToLower (baseName n)) + 1) :: seen)
        (prev ++ [baseName n]) hinv2 i (by simpa using hi)
      rw [this]
      simp only [List.getD_cons_succ, List.take_succ_cons, List.map_cons,
        List.append_assoc, List.singleton_append]

/-- C5 counterexample: the output of `makeUniqueColumnNames` is not pairwise
distinct, not even case-sensitively.  A suffixed collision `name_1` can
coincide with a literal later input `name_1`, whose own counter starts at
zero, so the list `["name", "name", "name_1"]` maps to
`["name", "name_1", "name_1"]` with a duplicate. -/
theorem makeUniqueColumnNames_not_pairwise :
    makeUniqueColumnNames ["name".data, "name".data, "name_1".data] =
      ["name".data, "name_1".data, "name_1".data] ∧
    ¬ List.Pairwise (fun a b => jsToLower a ≠ jsToLower b)
      (makeUniqueColumnNames ["name".data, "name".data, "name_1".data]) := by
  constructor
  · decide
  · decide

/-- C5 (corrected): `makeUniqueColumnNames` preserves length, keeps first
occurrences unqualified and suffixes the k-th later case-insensitive
collision of a (blank-normalised) base with `_k`, and maps
`["name", "value", "name", "value"]` to `["name", "value", "name_1",
"value_1"]`; but the resulting names are NOT guaranteed pairwise distinct,
because a suffixed name can collide with a literal input name. -/
theorem makeUniqueColumnNames_spec (names : List (List Char)) (i : Nat)
    (hi : i < names.length) :
    (makeUniqueColumnNames names).length = names.length ∧
    (makeUniqueColumnNames names).getD i [] =
      (let b := baseName (names.getD i []);
       let c := (((names.take i).map baseName).filter
         (fun p => jsToLower p = jsToLower b)).length;
       if 0 < c then b ++ '_' :: (Nat.repr c).data else b) ∧
    makeUniqueColumnNames ["name".data, "value".data, "name".data, "value".data] =
      ["name".data, "value".data, "name_1".data, "value_1".data] := by
  refine ⟨makeUniqueGo_length names [], ?_, by decide⟩
  have h := makeUniqueGo_getD names [] [] (fun k => rfl) i hi
  simpa [makeUniqueColumnNames] using h

/-- Witness for C5's theorem at a concrete input with a collision. -/
theorem makeUniqueColumnNames_spec_witness :
    (makeUniqueColumnNames ["a".data, "a".data]).length =
      (["a".data, "a".data] : List (List Char)).length ∧
    (makeUniqueColumnNames ["a".data, "a".data]).getD 1 [] =
      (let b := baseName ((["a".data, "a".data] : List (List Char)).getD 1 []);
       let c := ((((["a".data, "a".data] : List (List Char)).take 1).map baseName).filter
         (fun p => jsToLower p = jsToLower b)).length;
       if 0 < c then b ++ '_' :: (Nat.repr c).data else b) ∧
    makeUniqueColumnNames ["name".data, "value".data, "name".data, "value".data] =
      ["name".data, "value".data, "name_1".data, "value_1".data] :=
  makeUniqueColumnNames_spec ["a".data, "a".data] 1 (by decide)

/-- The rename list the engine's `sanitizeColumnNames` computes: a pair
(old, new) for every schema column whose engine-sanitised form differs
from the original name. -/
def computeRenames (cols : List (List Char)) : List (List Char × List Char) :=
  cols.filterMap (fun c =>
    let s := engineSanitizeColumnName c
    if s ≠ c then some (c, s) else none)

/-- One `ALTER TABLE ... RENAME COLUMN old TO new` acting on the schema's
column list: every column named `old` becomes `new`. -/
def applyRename (cols : List (List Char)) (r : List Char × List Char) :
    List (List Char) :=
  cols.map (fun c => if c = r.1 then r.2 else c)

/-- The table's column names after the engine's post-load cleanup: the
renames computed from the loaded schema, applied in order. -/
def postLoadColumnNames (cols : List (List Char)) : List (List Char) :=
  (computeRenames cols).foldl applyRename cols

theorem applyRenames_spec : ∀ (src done : List (List Char)),
    src.Nodup →
    (∀ a ∈ src, ∀ b ∈ src, engineSanitizeColumnName a = b → a = b) →
    (∀ d ∈ done, ∀ c ∈ src, d ≠ c) →
    List.foldl applyRename (done ++ src) (computeRenames src) =
      done ++ src.map engineSanitizeColumnName := by
  intro src
  induction src with
  | nil => intro done _ _ _; simp [computeRenames]
  | cons a rest ih =>
    intro done hnd hsafe hdone
    have hnotin : a ∉ rest := (List.nodup_cons.mp hnd).1
    have hndr : rest.Nodup := (List.nodup_cons.mp hnd).2
    by_cases hs : engineSanitizeColumnName a = a
    · have hcr : computeRenames (a :: rest) = computeRenames rest := by
        simp [computeRenames, hs]
      rw [hcr]
      have hstep : done ++ a :: rest = (done ++ [a]) ++ rest := by simp
      rw [hstep]
      rw [ih (done ++ [a]) hndr
        (fun x hx y hy => hsafe x (List.mem_cons_of_mem a hx) y (List.mem_cons_of_mem a hy))
        (fun d hd c hc => by
          rcases List.mem_append.mp hd with hd1 | hd1
          · exact hdone d hd1 c (List.mem_cons_of_mem a hc)
          · rw [List.mem_singleton.mp hd1]
            intro he
            exact hnotin (he ▸ hc))]
      simp [hs]
    · have hcr : computeRenames (a :: rest) =
          (a, engineSanitizeColumnName a) :: computeRenames rest := by
        simp [computeRenames, hs]
      rw [hcr, List.foldl_cons]
      have hrw : applyRename (done ++ a :: rest) (a, engineSanitizeColumnName a) =
          (done ++ [engineSanitizeColumnName a]) ++ rest := by
        unfold applyRename
        rw [List.map_append, List.map_cons]
        rw [List.map_congr_left (fun d hd => if_neg (hdone d hd a (List.mem_cons_self a rest)))]
        rw [List.map_congr_left (fun c hc => if_neg (fun he : c = a => hnotin (he ▸ hc)))]
        simp [List.map_id']
      rw [hrw]
      rw [ih (done ++ [engineSanitizeColumnName a]) hndr
        (fun x hx y hy => hsafe x (List.mem_cons_of_mem a hx) y (List.mem_cons_of_mem a hy))
        (fun d hd c hc => by
          rcases List.mem_append.mp hd with hd1 | hd1
          · exact hdone d hd1 c (List.mem_cons_of_mem a hc)
          · rw [List.mem_singleton.mp hd1]
            intro he
            have : a = c := hsafe a (List.mem_cons_self a rest) c (List.mem_cons_of_mem a hc) he
            exact hnotin (this ▸ hc))]
      simp

/-- C4 counterexample: the post-load rename pass uses the ENGINE's own
`sanitizeColumnName` (quotes and newlines only), not the detection
module's `sanitizeColumnName` plus `makeUniqueColumnNames`.  On the single
column `First Name` the engine keeps the space, while the claimed
composition would produce `First_Name`. -/
theorem postLoadColumnNames_counterexample :
    postLoadColumnNames [("First Name").data] = [("First Name").data] ∧
    makeUniqueColumnNames ([("First Name").data].map sanitizeColumnName) =
      [("First_Name").data] ∧
    ([("First Name").data] : List (List Char)) ≠ [("First_Name").data] := by
  refine ⟨by decide, by decide, by decide⟩

/-- C4 (corrected): on a successful load the post-load column cleanup
equals the map of the engine's OWN `sanitizeColumnName` (newline runs to a
space, quote removal, whitespace collapsing, trim, 64-char truncation) —
with no uniqueness pass — provided the schema's names are distinct and no
sanitised form collides with a different original name. -/
theorem postLoadColumnNames_spec (cols : List (List Char))
    (hnd : cols.Nodup)
    (hsafe : ∀ a ∈ cols, ∀ b ∈ cols, engineSanitizeColumnName a = b → a = b) :
    postLoadColumnNames cols = cols.map engineSanitizeColumnName := by
  have h := applyRenames_spec cols [] hnd hsafe (fun d hd => absurd hd (List.not_mem_nil d))
  simpa [postLoadColumnNames] using h

/-- Witness for C4's theorem on a schema with a quoted column name. -/
theorem postLoadColumnNames_spec_witness :
    postLoadColumnNames [("col\"1").data, "name".data] =
      ([("col\"1").data, "name".data] : List (List Char)).map engineSanitizeColumnName :=
  postLoadColumnNames_spec [("col\"1").data, "name".data] (by decide) (by decide)

/-- The outcome of one load attempt, as returned by `loadFile`. -/
structure LoadResult where
  tableName : List Char
  rowCount : Nat
  strategy : List Char
  encoding : List Char
  delimiter : Char
  warnings : List (List Char)

/-- The externally determined fate of each awaited engine call inside one
strategy attempt of `loadFile`: `some e` means the call throws `e`. -/
structure AttemptEffects where
  registerErr : Option (List Char)
  createErr : Option (List Char)
  renameErr : Option (List Char)
  countErr : Option (List Char)
  rowCount : Nat

/-- The environment of a `loadFile` call: the effect of each strategy's
engine calls (keyed by strategy name) and the analysis-derived fields that
populate a successful result. -/
structure LoadEnv where
  effects : List Char → AttemptEffects
  tableName : List Char
  fileEncoding : List Char
  delimiter : Char
  analysisWarnings : List (List Char)

/-- One iteration of `loadFile`'s strategy loop: registerFileText, CREATE
TABLE, `sanitizeColumnNames` and COUNT(*) run in order inside the `try`;
the first throw aborts the attempt, otherwise the result's warnings are
exactly `analysis.warnings`. -/
def attemptStrategy (env : LoadEnv) (s : List Char) :
    Except (List Char) LoadResult :=
  match (env.effects s).registerErr with
  | some e => .error e
  | none =>
    match (env.effects s).createErr with
    | some e => .error e
    | none =>
      match (env.effects s).renameErr with
      | some e => .error e
      | none =>
        match (env.effects s).countErr with
        | some e => .error e
        | none => .ok {
            tableName := env.tableName,
            rowCount := (env.effects s).rowCount,
            strategy := s,
            encoding := env.fileEncoding,
            delimiter := env.delimiter,
            warnings := env.analysisWarnings }

/-- `loadFile`'s loop over the strategy list, carrying `lastError`; when
every strategy fails it throws the last error (`null` if none ran). -/
def loadFileLoop (env : LoadEnv) :
    List (List Char) → Option (List Char) → Except (List Char) LoadResult
  | [], last => .error (last.getD "null".data)
  | s :: rest, _ =>
    match attemptStrategy env s with
    | .ok r => .ok r
    | .error e => loadFileLoop env rest (some e)

/-- The strategy names `loadFile` tries, in order. -/
def strategyOrder : List (List Char) :=
  ["detected".data, "all_varchar".data, "minimal".data, "auto".data]

/-- Embeds the strategy-loop portion of `loadFile`. -/
def loadFileStrategies (env : LoadEnv) : Except (List Char) LoadResult :=
  loadFileLoop env strategyOrder none

theorem loadFileLoop_warnings (env : LoadEnv) :
    ∀ (names : List (List Char)) (l : Option (List Char)) (r : LoadResult),
      loadFileLoop env names l = .ok r → r.warnings = env.analysisWarnings := by
  intro names
  induction names with
  | nil => intro l r h; exact absurd h (by simp [loadFileLoop])
  | cons s rest ih =>
    intro l r h
    rw [loadFileLoop] at h
    rcases ha : attemptStrategy env s with e | r2
    · rw [ha] at h
      exact ih (some e) r h
    · rw [ha] at h
      have hr : r2 = r := by
        injection h with h2
      unfold attemptStrategy at ha
      rcases h1 : (env.effects s).registerErr with _ | e1 <;> rw [h1] at ha
      case _ =>
        rcases h2 : (env.effects s).createErr with _ | e2 <;> rw [h2] at ha
        case _ =>
          rcases h3 : (env.effects s).renameErr with _ | e3 <;> rw [h3] at ha
          case _ =>
            rcases h4 : (env.effects s).countErr with _ | e4 <;> rw [h4] at ha
            case _ =>
              injection ha with ha2
              rw [← hr, ← ha2]
            case _ => exact absurd ha (by simp)
          case _ => exact absurd ha (by simp)
        case _ => exact absurd ha (by simp)
      case _ => exact absurd ha (by simp)

/-- The effects of a run where every strategy's rename step throws. -/
def c3Effects (_ : List Char) : AttemptEffects :=
  { registerErr := none, createErr := none,
    renameErr := some ("rename failed").data, countErr := none, rowCount := 10 }

/-- A `loadFile` environment whose every rename call throws. -/
def c3Env : LoadEnv :=
  { effects := c3Effects, tableName := "t".data, fileEncoding := "utf-8".data,
    delimiter := ',', analysisWarnings := [] }

/-- C3 counterexample: when the post-load rename throws in every strategy,
`loadFile` does NOT return a successful result with a warning — it throws
the rename error after exhausting the strategies. -/
theorem loadFile_rename_failure_counterexample :
    loadFileStrategies c3Env = .error ("rename failed").data ∧
    ∀ r : LoadResult, loadFileStrategies c3Env ≠ .ok r := by
  constructor
  · rfl
  · intro r h
    rw [show loadFileStrategies c3Env = .error ("rename failed").data from rfl] at h
    exact Except.noConfusion h

/-- C3 (corrected): a rename failure during post-load cleanup IS fatal to
the current strategy attempt: `await this.sanitizeColumnNames(name)` sits
inside the `try`, so its throw is caught as the attempt's failure and the
loop moves on to the next strategy carrying the rename error as
`lastError`; and the warnings of any successful result are exactly
`analysis.warnings` — no rename failure is ever recorded there. -/
theorem loadFile_rename_failure_spec (env : LoadEnv) (s : List Char)
    (rest : List (List Char)) (last : Option (List Char)) (e : List Char)
    (hreg : (env.effects s).registerErr = none)
    (hcreate : (env.effects s).createErr = none)
    (hren : (env.effects s).renameErr = some e) :
    loadFileLoop env (s :: rest) last = loadFileLoop env rest (some e) ∧
    ∀ (names : List (List Char)) (l : Option (List Char)) (r : LoadResult),
      loadFileLoop env names l = .ok r → r.warnings = env.analysisWarnings := by
  constructor
  · rw [loadFileLoop]
    unfold attemptStrategy
    rw [hreg, hcreate, hren]
  · exact loadFileLoop_warnings env

/-- The effects of a run whose first strategy fails its rename step and
whose later strategies succeed. -/
def c3wEffects (s : List Char) : AttemptEffects :=
  if s = "detected".data then
    { registerErr := none, createErr := none, renameErr := some "boom".data,
      countErr := none, rowCount := 5 }
  else
    { registerErr := none, createErr := none, renameErr := none,
      countErr := none, rowCount := 5 }

/-- A `loadFile` environment for the C3 witness. -/
def c3wEnv : LoadEnv :=
  { effects := c3wEffects, tableName := "t".data, fileEncoding := "utf-8".data,
    delimiter := ',', analysisWarnings := ["w1".data] }

/-- Witness for C3's theorem at a concrete environment. -/
theorem loadFile_rename_failure_spec_witness :
    loadFileLoop c3wEnv ["detected".data, "auto".data] none =
      loadFileLoop c3wEnv ["auto".data] (some "boom".data) ∧
    ∀ (names : List (List Char)) (l : Option (List Char)) (r : LoadResult),
      loadFileLoop c3wEnv names l = .ok r → r.warnings = c3wEnv.analysisWarnings :=
  loadFile_rename_failure_spec c3wEnv "detected".data ["auto".data] none "boom".data
    (by decide) (by decide) (by decide)

end Ziip
